import Mathlib

/-!
# Verification of the yiv image library (`yiv-lib.h` / `yiv-lib.cpp`)

Shallow embedding of the `yiv::Image` pixel-buffer operations and of the
`yiv::ImageList::sort` contract, together with theorems settling the spec
claims about them.

Modelling conventions, used consistently below:

* Pixel bytes (`unsigned char`) are natural numbers; theorems that depend on
  the byte range carry the hypothesis `b < 256` (resp. `b ≤ 255`).
* Machine integers (`int`, `size_t`) are `ℕ`/`ℤ`; none of the loops below can
  overflow a 64-bit size on inputs a decoder can produce, and no claim is
  about integer overflow.
* C `float` / `double` values are exact fractions, and every floating-point
  operation of the source is translated as "exact fraction operation followed
  by correct rounding": `fl32` / `fl64` below implement IEEE-754
  round-to-nearest, ties-to-even, at 24 (resp. 53) significant bits, which is
  exactly binary32 / binary64 arithmetic on the normal range.  The embedded
  code never produces subnormal, infinite or NaN intermediate values on the
  inputs the theorems quantify over, except where explicitly noted.
* Fractions are represented by the structure `Q` (an integer numerator and a
  positive integer denominator, not necessarily reduced) rather than by
  Mathlib's `ℚ`, so that every arithmetic step is a plain integer computation
  and concrete instances can be settled by `decide`; `Q.toRat` interprets a
  fraction in `ℚ` and the `toRat` lemmas transport the analytic reasoning.
* Out-of-range `std::vector` subscripts are undefined behaviour in C++; the
  embedding totalises them with `List.getD _ 0` / no-op `List.set`, and the
  one place where the source actually performs such accesses is reported as a
  code bug (claim C4) rather than reasoned about.
* The external codec (`stb_image`, `stb_image_write`) and `std::sort` are not
  part of this repository; they enter the embedding as parameters (a decode
  result, a writer oracle) or through their documented contract (a sorted
  permutation).
-/

namespace Yiv

/-! ## Exact fractions with computable arithmetic -/

/-- An exact fraction: `num / den`.  All constructors and operations below
keep `0 < den`; the representation is not reduced, which keeps every
operation a plain integer computation. -/
structure Q where
  num : ℤ
  den : ℤ
deriving DecidableEq, Repr

namespace Q

/-- The fraction representing an integer. -/
def ofInt (n : ℤ) : Q := ⟨n, 1⟩

/-- Exact sum of two fractions. -/
def add (a b : Q) : Q := ⟨a.num * b.den + b.num * a.den, a.den * b.den⟩

/-- Exact difference of two fractions. -/
def sub (a b : Q) : Q := ⟨a.num * b.den - b.num * a.den, a.den * b.den⟩

/-- Exact product of two fractions. -/
def mul (a b : Q) : Q := ⟨a.num * b.num, a.den * b.den⟩

/-- Exact quotient of two fractions (sign moved into the numerator so that
the denominator stays positive).  Division by a zero fraction gives a
denominator `0` and is never performed by the embedded code on the inputs
the theorems quantify over. -/
def div (a b : Q) : Q :=
  if b.num < 0 then ⟨-(a.num * b.den), a.den * -b.num⟩
  else ⟨a.num * b.den, a.den * b.num⟩

/-- Value order on fractions (valid for positive denominators). -/
def lt (a b : Q) : Prop := a.num * b.den < b.num * a.den

/-- Value order on fractions (valid for positive denominators). -/
def le (a b : Q) : Prop := a.num * b.den ≤ b.num * a.den

instance (a b : Q) : Decidable (Q.lt a b) :=
  inferInstanceAs (Decidable (a.num * b.den < b.num * a.den))

instance (a b : Q) : Decidable (Q.le a b) :=
  inferInstanceAs (Decidable (a.num * b.den ≤ b.num * a.den))

/-- `⌊a⌋`: floor of a fraction (valid for positive denominators). -/
def floor (a : Q) : ℤ := a.num.fdiv a.den

/-- C-style truncation toward zero of a fraction, the semantics of a C cast
from a floating-point value to an integer type. -/
def cTrunc (a : Q) : ℤ := a.num.tdiv a.den

/-- `std::min` on two floating-point values (an exact comparison). -/
def minQ (a b : Q) : Q := if Q.le a b then a else b

/-- The rational value of a fraction. -/
def toRat (a : Q) : ℚ := (a.num : ℚ) / (a.den : ℚ)

end Q

/-- `2 ^ k` as a fraction, for an integer exponent `k`. -/
def pow2 : ℤ → Q
  | Int.ofNat n => ⟨2 ^ n, 1⟩
  | Int.negSucc n => ⟨1, 2 ^ (n + 1)⟩

/-! ## IEEE-754 rounding -/

/-- The integer nearest to the scaled significand `s`, ties to the even
integer: `s.floor` when the fractional part is below 1/2, `s.floor + 1` when
it is above, and the even one of the two on a tie. -/
def flPick (s : Q) : ℤ :=
  if Q.lt (s.sub (Q.ofInt s.floor)) ⟨1, 2⟩ then s.floor
  else if Q.lt ⟨1, 2⟩ (s.sub (Q.ofInt s.floor)) then s.floor + 1
  else if s.floor % 2 = 0 then s.floor else s.floor + 1

/-- Round `q` to the nearest integer multiple of `2 ^ k`, ties to the even
multiple.  This is the final rounding step of an IEEE-754 operation once the
exponent of the result is known. -/
def flRound (q : Q) (k : ℤ) : Q :=
  (Q.ofInt (flPick (q.mul (pow2 (-k))))).mul (pow2 k)

/-- Binary exponent search: repeatedly doubles or halves `m` (adjusting the
exponent accumulator `e`) until `m ∈ [1, 2)`; `fuel` bounds the number of
steps and is always sufficient for the normal floating-point range. -/
def expAux : ℕ → Q → ℤ → ℤ
  | 0, _, e => e
  | fuel + 1, m, e =>
    if Q.lt m ⟨1, 1⟩ then expAux fuel (m.mul ⟨2, 1⟩) (e - 1)
    else if Q.le ⟨2, 1⟩ m then expAux fuel (m.mul ⟨1, 2⟩) (e + 1)
    else e

/-- The binary exponent `⌊log₂ |q|⌋` of a nonzero fraction in the normal
floating-point range. -/
def flExp (q : Q) : ℤ := expAux 1200 ⟨|q.num|, q.den⟩ 0

/-- Correctly rounded IEEE-754 `binary64` (C `double`) value of a fraction:
round to 53 significant bits, nearest, ties to even.  Valid for the normal
range of `binary64`, which covers every value the embedded code produces. -/
def fl64 (q : Q) : Q := if q.num = 0 then ⟨0, 1⟩ else flRound q (flExp q - 52)

/-- Correctly rounded IEEE-754 `binary32` (C `float`) value of a fraction:
round to 24 significant bits, nearest, ties to even.  Valid for the normal
range of `binary32`. -/
def fl32 (q : Q) : Q := if q.num = 0 then ⟨0, 1⟩ else flRound q (flExp q - 23)

/-- The `double` literal `0.3` of the source (the `binary64` value nearest to
3/10). -/
def d03 : Q := fl64 ⟨3, 10⟩

/-- The `double` literal `0.59` of the source. -/
def d059 : Q := fl64 ⟨59, 100⟩

/-- The `double` literal `0.11` of the source. -/
def d011 : Q := fl64 ⟨11, 100⟩

/-- The `double` literal `1.2` of the source. -/
def d12 : Q := fl64 ⟨6, 5⟩

example : d03 = ⟨5404319552844595, 2 ^ 54⟩ := by decide
example : d059 = ⟨5314247560297185, 2 ^ 53⟩ := by decide
example : d011 = ⟨7926335344172073, 2 ^ 56⟩ := by decide
example : d12 = ⟨5404319552844595, 2 ^ 52⟩ := by decide
example : fl32 ⟨7, 10⟩ = ⟨11744051, 2 ^ 24⟩ := by decide
example : (fl32 ((Q.ofInt 10).mul (fl32 ⟨7, 10⟩))).cTrunc = 7 := by decide
example : (fl32 ⟨2 ^ 24 + 1, 1⟩).num = 2 ^ 24 := by decide
example : fl32 ⟨2 ^ 24 + 3, 1⟩ = ⟨2 ^ 24 + 4, 1⟩ := by decide

/-! ## The pixel-buffer model (`yiv::Image`)

The C++ class members `m_width`, `m_height`, `m_channels`, `m_pixels` become
the fields of `Image`; `m_filePath` is provenance only (no claim mentions
it) and is omitted.  The mutating member functions become functions
`Image → ... → Image` returning the new object state; functions that also
return a result return a pair — except `loadPartial`, whose return type
`LoadOutcome` additionally models the exception it can throw and the raw
(possibly negative) `int` dimensions it can store. -/

/-- `FilterType` from `yiv-lib.h`. -/
inductive FilterType
  | Grayscale | Invert | Brightness | Contrast
deriving DecidableEq, Repr

/-- `ImageFormat` from `yiv-lib.h`, line 19: `PNG, JPEG, BMP, GIF, TIFF,
WEBP, HEIF`.  Note that there is **no** `TGA` enumerator, although
`Image::saveAs` in `yiv-lib.cpp` has a `case ImageFormat::TGA:` — that
reference to a nonexistent enumerator makes the C++ translation unit
ill-formed (claim C8); the model keeps the declared enumeration. -/
inductive ImageFormat
  | PNG | JPEG | BMP | GIF | TIFF | WEBP | HEIF
deriving DecidableEq, Repr

/-- The state of a `yiv::Image`: dimensions, channel count and the pixel
byte vector (bytes as naturals; decoded bytes are `< 256`). -/
structure Image where
  width : ℕ
  height : ℕ
  channels : ℕ
  pixels : List ℕ
deriving DecidableEq, Repr

/-- The class invariant of claim C10: the pixel vector holds exactly
`width * height * channels` bytes. -/
def sizeInv (img : Image) : Prop :=
  img.pixels.length = img.width * img.height * img.channels

instance (img : Image) : Decidable (sizeInv img) :=
  inferInstanceAs (Decidable (img.pixels.length = img.width * img.height * img.channels))

/-- `Image::updatePixelData(data, width, height, channels)`: store the
dimensions and copy `width*height*channels` bytes from `data`.  (The C++
caller always hands a buffer of at least that size; reading past the given
list — undefined behaviour in C++ — is totalised with the byte 0.) -/
def updatePixelData (data : List ℕ) (width height channels : ℕ) : Image :=
  { width := width, height := height, channels := channels,
    pixels := (List.range (width * height * channels)).map (fun i => data.getD i 0) }

/-- A successful result of the external decoder `stbi_load`: dimensions,
channel count and the decoded byte vector (of length
`width * height * channels`, with bytes `< 256`). -/
structure Decoded where
  width : ℕ
  height : ℕ
  channels : ℕ
  data : List ℕ
deriving DecidableEq, Repr

/-- `Image::loadFromFile`: the decoder's outcome for the given path is the
parameter `dec` (`none` = `stbi_load` returned null).  On failure the state
is untouched and `false` is returned; on success the decoded image replaces
the state.  (`m_filePath` is not modelled.) -/
def loadFromFile (dec : Option Decoded) (img : Image) : Bool × Image :=
  match dec with
  | none => (false, img)
  | some d => (true, updatePixelData d.data d.width d.height d.channels)

/-- The outcome of a call to `Image::loadPartial`.  `ret ok width height
channels pixels` is a normal return with result `ok` and the object state
afterwards — the raw `int` values the C++ stores (they can be negative, see
`loadRegion`), with the byte vector.  `thrown img` is the propagation of the
`std::length_error` that `std::vector`'s size constructor raises when
`w * h * channels` is negative (the `int` converts to an enormous `size_t`):
the function never returns and the state `img` is untouched, since the throw
happens before any mutation. -/
inductive LoadOutcome
  | thrown (img : Image)
  | ret (ok : Bool) (width height channels : ℤ) (pixels : List ℕ)
deriving DecidableEq, Repr

/-- `Image::loadPartial(path, x, y, w, h)` (the spec calls it `loadRegion`).
Decode, then validate `x < 0 || y < 0 || x + w > width || y + h > height` —
note this does **not** reject negative `w` or `h`.  Then
`std::vector<unsigned char> partialPixels(w * h * channels)` is constructed:
for `w * h * channels < 0` the `int` wraps to a huge `size_t` and the
constructor throws `std::length_error` (`thrown`).  Otherwise the row loop
performs, for each `row < h` (no iterations when `h ≤ 0`), a `memcpy` of
`w*channels` bytes from offset `((y+row)*width + x)*channels` of the decoded
data — flattened, byte `i` of the copied region lies in row `i / (w*channels)`
at offset `i % (w*channels)`; bytes of the vector beyond the copied region
(present exactly when `w < 0` and `h < 0`, where `w*h*channels ≥ 0` but the
loop runs zero times) keep their zero initialisation.  Finally
`updatePixelData(partialPixels.data(), w, h, channels)` stores the raw `int`
dimensions — negative ones included — and copies `w*h*channels` bytes, and
`true` is returned.  (Signed overflow of `w * h * channels`, undefined in
C++, is totalised as the mathematical product, in line with this file's
conventions.) -/
def loadRegion (dec : Option Decoded) (x y w h : ℤ) (img : Image) : LoadOutcome :=
  match dec with
  | none => .ret false img.width img.height img.channels img.pixels
  | some d =>
    if x < 0 ∨ y < 0 ∨ x + w > (d.width : ℤ) ∨ y + h > (d.height : ℤ) then
      .ret false img.width img.height img.channels img.pixels
    else if w * h * (d.channels : ℤ) < 0 then .thrown img
    else
      let rowBytes := w.toNat * d.channels
      let partialPixels : List ℕ :=
        (List.range ((w * h * (d.channels : ℤ)).toNat)).map (fun i =>
          if i < h.toNat * rowBytes then
            d.data.getD (((y.toNat + i / rowBytes) * d.width + x.toNat) * d.channels
              + i % rowBytes) 0
          else 0)
      .ret true w h d.channels partialPixels

/-- The size invariant of claim C10 on a `loadPartial` outcome: on a normal
return the byte vector holds exactly `width * height * channels` bytes (as
the C++ `int` product, which is what `updatePixelData` copies); on a throw
the state is the untouched receiver, which keeps its own invariant. -/
def sizeInvOutcome : LoadOutcome → Prop
  | .thrown i => sizeInv i
  | .ret _ wi he ch px => (px.length : ℤ) = wi * he * ch

/-- `Image::rotateClockwise()`.  The C++ loop writes, for every `y < height`,
`x < width`, `c < channels`,

  `rotated[(x*height + (height-y-1))*channels + c]
     = m_pixels[(y*width + x)*channels + c]`

into a buffer of `m_pixels.size()` bytes, then swaps the dimensions.  Every
destination index below `width*height*channels` is written exactly once; this
definition gives each destination index `j` the value that loop writes to it
(destination `j` decomposes as `x = j/channels/height`,
`height-y-1 = j/channels % height`, `c = j % channels`; the theorem for claim
C1 recovers the loop's literal per-write form). -/
def rotateClockwise (img : Image) : Image :=
  { width := img.height, height := img.width, channels := img.channels,
    pixels := (List.range img.pixels.length).map (fun (j : ℕ) =>
      img.pixels.getD
        (((img.height - 1 - (j / img.channels % img.height)) * img.width
            + j / img.channels / img.height) * img.channels + j % img.channels) 0) }

/-- `Image::rotateCounterClockwise()`: literally three clockwise rotations in
the source. -/
def rotateCounterClockwise (img : Image) : Image :=
  rotateClockwise (rotateClockwise (rotateClockwise img))

/-- `int(n * factor)` for an `int` dimension `n` and a `float` factor: `n` is
converted to `float`, the product is a correctly rounded `float`
multiplication, and the cast truncates toward zero. -/
def scaledDim (n : ℕ) (factor : Q) : ℕ :=
  (fl32 ((fl32 (Q.ofInt n)).mul factor)).cTrunc.toNat

/-- `int(x / factor)` for an `int` coordinate `x` and a `float` factor: `x` is
converted to `float`, the quotient is a correctly rounded `float` division,
and the cast truncates toward zero. -/
def srcCoord (x : ℕ) (factor : Q) : ℕ :=
  (fl32 ((fl32 (Q.ofInt x)).div factor)).cTrunc.toNat

/-- `Image::scale(float factor)`.  `factor <= 0` returns immediately (exact
comparison).  Otherwise `newW = int(m_width * factor)` and
`newH = int(m_height * factor)` (see `scaledDim`); the destination loop
fills, for destination column `x = j/channels % newW`, row
`y = j/channels / newW` and channel `j % channels`, the byte of the source
pixel at column `int(x / factor)`, row `int(y / factor)` (see `srcCoord`).
A source index outside the buffer (possible only through `float` rounding at
dimensions far beyond any decodable image) is undefined behaviour in C++ and
is totalised with the byte 0. -/
def scale (img : Image) (factor : Q) : Image :=
  if Q.le factor ⟨0, 1⟩ then img
  else
    let newW := scaledDim img.width factor
    let newH := scaledDim img.height factor
    { width := newW, height := newH, channels := img.channels,
      pixels := (List.range (newW * newH * img.channels)).map (fun (j : ℕ) =>
        img.pixels.getD
          ((srcCoord (j / img.channels / newW) factor * img.width
            + srcCoord (j / img.channels % newW) factor) * img.channels
            + j % img.channels) 0) }

/-- The `double` computation of the Grayscale filter:
`(unsigned char)(0.3*r + 0.59*g + 0.11*b)` — each byte converted exactly to
`double`, each multiplication and addition correctly rounded, the final cast
truncating toward zero (the value lies in `[0, 255]`, so the cast is
defined). -/
def grayVal (r g b : ℕ) : ℕ :=
  let tr := fl64 (d03.mul (Q.ofInt r))
  let tg := fl64 (d059.mul (Q.ofInt g))
  let tb := fl64 (d011.mul (Q.ofInt b))
  (fl64 ((fl64 (tr.add tg)).add tb)).cTrunc.toNat

/-- One iteration of the Grayscale loop at pixel start `i`: read bytes `i`,
`i+1`, `i+2`, then write the gray value to all three.  (For fewer than three
channels the reads run past the pixel or the buffer — claim C4.) -/
def grayStep (l : List ℕ) (i : ℕ) : List ℕ :=
  let g := grayVal (l.getD i 0) (l.getD (i + 1) 0) (l.getD (i + 2) 0)
  ((l.set i g).set (i + 1) g).set (i + 2) g

/-- The `double` computation of the Contrast filter on one byte:
`min(255, max(0, int((px-128)*1.2 + 128)))` — the subtraction is exact `int`
arithmetic, the multiplication by the `double` literal `1.2` and the addition
of `128.0` are correctly rounded, `int(...)` truncates toward zero. -/
def contrastVal (b : ℕ) : ℕ :=
  (min 255 (max 0 ((fl64 ((fl64 ((Q.ofInt ((b : ℤ) - 128)).mul d12)).add
    (Q.ofInt 128))).cTrunc))).toNat

/-- `Image::applyFilter(type)`.  The Grayscale loop runs
`for (i = 0; i < w*h*ch; i += ch)`, i.e. `(w*h*ch)/ch` iterations at the
pixel starts `0, ch, 2*ch, ...` (for `ch ≥ 1` that is `w*h` iterations; for
`ch = 0` the loop body never runs, matching the division by zero giving 0).
The other three filters are per-byte maps over the vector
(`for (auto& px : m_pixels)`); bytes are `unsigned char` values `< 256`, on
which the `ℕ` formulas below agree with the C arithmetic. -/
def applyFilter (img : Image) (t : FilterType) : Image :=
  match t with
  | .Grayscale =>
    let iters := img.width * img.height * img.channels / img.channels
    { img with
      pixels := (List.range iters).foldl (fun l p => grayStep l (p * img.channels)) img.pixels }
  | .Invert => { img with pixels := img.pixels.map (fun b => 255 - b) }
  | .Brightness => { img with pixels := img.pixels.map (fun b => min 255 (b + 50)) }
  | .Contrast => { img with pixels := img.pixels.map contrastVal }

/-- A call into `stb_image_write`, recording which writer `Image::saveAs`
invoked and with which arguments (the output path string is passed through
unchanged and no claim mentions it, so it is omitted). -/
inductive WriterCall
  | png (width height channels : ℕ) (data : List ℕ) (stride : ℕ)
  | jpg (width height channels : ℕ) (data : List ℕ) (quality : ℕ)
  | bmp (width height channels : ℕ) (data : List ℕ)
  | tga (width height channels : ℕ) (data : List ℕ)
deriving DecidableEq, Repr

/-- `Image::saveAs(path, format)`.  `writer` is the external
`stb_image_write` oracle returning the C `int` result of the invoked writer;
the returned pair records the writer call made (`none` for the `default:`
branch) and the boolean result `success != 0`.  The source's
`case ImageFormat::TGA:` names an enumerator that `ImageFormat` does not
declare and cannot be compiled (claim C8); every declared format other than
PNG/JPEG/BMP falls through to the `default:` branch. -/
def saveAs (writer : WriterCall → ℤ) (img : Image) (format : ImageFormat) :
    Option WriterCall × Bool :=
  match format with
  | .PNG =>
    let c := WriterCall.png img.width img.height img.channels img.pixels
      (img.width * img.channels)
    (some c, writer c != 0)
  | .JPEG =>
    let c := WriterCall.jpg img.width img.height img.channels img.pixels 90
    (some c, writer c != 0)
  | .BMP =>
    let c := WriterCall.bmp img.width img.height img.channels img.pixels
    (some c, writer c != 0)
  | _ => (none, false)

/-- `Image::generateThumbnail(maxWidth, maxHeight)`:
`scaleFactor = std::min(float(maxWidth)/m_width, float(maxHeight)/m_height)`
(each operand converted to `float`, the divisions correctly rounded, the
comparison exact), then a fresh `Image` receives a copy of the pixel data and
is scaled.  Returns (unchanged own state, the thumbnail).  For
`m_width = 0`/`m_height = 0` the C++ divisions produce infinities or NaN,
outside this model; the theorems assume positive dimensions as the claim
does. -/
def generateThumbnail (img : Image) (maxWidth maxHeight : ℤ) : Image × Image :=
  let factor := Q.minQ
    (fl32 ((fl32 (Q.ofInt maxWidth)).div (fl32 (Q.ofInt img.width))))
    (fl32 ((fl32 (Q.ofInt maxHeight)).div (fl32 (Q.ofInt img.height))))
  (img, scale (updatePixelData img.pixels img.width img.height img.channels) factor)

/-! ## The collection model (`yiv::ImageList::sort`)

Entries are `std::shared_ptr<Image>` handles; for the sorting claim only
their identities matter, so they are modelled as natural-number handles.
`std::sort` is external library code; it enters the model through its
documented contract: the entries afterwards are *some* permutation of the
entries before that is sorted with respect to the comparator — which
permutation is unspecified, and in particular no stability is promised.
The mutex held during `ImageList::sort` serialises the call and plays no
role in its sequential behaviour. -/

/-- `std::is_sorted` with respect to a strict comparator: no element compares
before its predecessor. -/
def SortedBy (cmp : ℕ → ℕ → Bool) (l : List ℕ) : Prop :=
  l.Chain' (fun a b => cmp b a = false)

instance (cmp : ℕ → ℕ → Bool) (l : List ℕ) : Decidable (SortedBy cmp l) :=
  inferInstanceAs (Decidable (l.Chain' (fun a b => cmp b a = false)))

/-- The contract of `ImageList::sort(comparator)` relating the entry list
before and after the call: the result is a sorted permutation. -/
def sortOutcome (cmp : ℕ → ℕ → Bool) (pre post : List ℕ) : Prop :=
  post.Perm pre ∧ SortedBy cmp post

/-- A strict weak ordering, the comparator contract named by the spec:
irreflexive, transitive, and with transitive incomparability. -/
def StrictWeakOrder (cmp : ℕ → ℕ → Bool) : Prop :=
  (∀ a, cmp a a = false) ∧
  (∀ a b c, cmp a b = true → cmp b c = true → cmp a c = true) ∧
  (∀ a b c, cmp a b = false → cmp b a = false → cmp b c = false → cmp c b = false →
    cmp a c = false ∧ cmp c a = false)

/-- Two entries are equivalent under a comparator when neither compares
before the other. -/
def equivB (cmp : ℕ → ℕ → Bool) (x y : ℕ) : Bool := !cmp x y && !cmp y x

/-- Stability: entries equivalent under the comparator keep their original
relative order, i.e. for every entry the equivalence-class subsequence is
unchanged. -/
def StableWrt (cmp : ℕ → ℕ → Bool) (pre post : List ℕ) : Prop :=
  ∀ x, post.filter (equivB cmp x) = pre.filter (equivB cmp x)

/-- The byte of channel `c` of the pixel in column `x`, row `y` of an image's
row-major buffer. -/
def pixAt (img : Image) (x y c : ℕ) : ℕ :=
  img.pixels.getD ((y * img.width + x) * img.channels + c) 0

/-- The `m_pixels` indices the Grayscale loop of `Image::applyFilter` reads
(and writes): iteration `p` of `for (i = 0; i < w*h*ch; i += ch)` touches
`i = p*ch`, `i+1` and `i+2` regardless of the channel count. -/
def grayReads (width height channels : ℕ) : List ℕ :=
  (List.range (width * height * channels / channels)).flatMap
    (fun p => [p * channels, p * channels + 1, p * channels + 2])

/-- Whether a writer call is a call of the TGA writer. -/
def WriterCall.isTga : WriterCall → Bool
  | .tga _ _ _ _ => true
  | _ => false

/-! ## Buffer-index bookkeeping -/

lemma rangeMap_length (f : ℕ → ℕ) (n : ℕ) : ((List.range n).map f).length = n := by
  simp

lemma rangeMap_getD (f : ℕ → ℕ) (n i : ℕ) (h : i < n) :
    ((List.range n).map f).getD i 0 = f i := by
  rw [List.getD_eq_getElem _ _ (by simpa using h), List.getElem_map, List.getElem_range]

lemma addMul_div {b k : ℕ} (a : ℕ) (h : b < k) : (a * k + b) / k = a := by
  have hk : 0 < k := lt_of_le_of_lt (Nat.zero_le b) h
  rw [Nat.add_comm, Nat.add_mul_div_right _ _ hk, Nat.div_eq_of_lt h, Nat.zero_add]

lemma addMul_mod {b k : ℕ} (a : ℕ) (h : b < k) : (a * k + b) % k = b := by
  rw [Nat.add_comm, Nat.add_mul_mod_self_right, Nat.mod_eq_of_lt h]

/-- A pixel-buffer index `(a*B + b)*C + c` built from coordinates in range is
in range. -/
lemma idx_lt {a b c A B C : ℕ} (ha : a < A) (hb : b < B) (hc : c < C) :
    (a * B + b) * C + c < A * B * C := by
  have h1 : a * B + b + 1 ≤ A * B := by
    have h2 : (a + 1) * B ≤ A * B := Nat.mul_le_mul_right B ha
    have h3 : a * B + b + 1 ≤ (a + 1) * B := by rw [Nat.succ_mul]; omega
    omega
  calc (a * B + b) * C + c < (a * B + b) * C + C := by omega
    _ = (a * B + b + 1) * C := by ring
    _ ≤ A * B * C := Nat.mul_le_mul_right C h1

/-- Decompose a buffer index `j < W*H*C` into its channel `j % C`, column
`(j/C) % W` and row `j/C/W`. -/
lemma split3 {j W H C : ℕ} (h : j < W * H * C) :
    j % C < C ∧ (j / C) % W < W ∧ j / C / W < H ∧
      ((j / C / W) * W + (j / C) % W) * C + j % C = j := by
  have hC : 0 < C := by
    rcases Nat.eq_zero_or_pos C with h0 | h0
    · subst h0; simp at h
    · exact h0
  have hW : 0 < W := by
    rcases Nat.eq_zero_or_pos W with h0 | h0
    · subst h0; simp at h
    · exact h0
  have hjC : j / C < W * H := by
    rw [Nat.div_lt_iff_lt_mul hC]; exact h
  have hrow : j / C / W < H := by
    rw [Nat.div_lt_iff_lt_mul hW]
    calc j / C < W * H := hjC
      _ = H * W := Nat.mul_comm W H
  refine ⟨Nat.mod_lt _ hC, Nat.mod_lt _ hW, hrow, ?_⟩
  have e1 : (j / C / W) * W + (j / C) % W = j / C := by
    rw [Nat.mul_comm]; exact Nat.div_add_mod _ W
  rw [e1, Nat.mul_comm]
  exact Nat.div_add_mod j C

/-- `getD` after `set`: the updated position if it exists, otherwise the old
value. -/
lemma getD_set (l : List ℕ) (i j a : ℕ) :
    (l.set i a).getD j 0 = if i = j ∧ j < l.length then a else l.getD j 0 := by
  by_cases hj : j < l.length
  · rw [List.getD_eq_getElem _ _ (by simpa using hj), List.getElem_set,
      List.getD_eq_getElem _ _ hj]
    by_cases hij : i = j <;> simp [hij, hj]
  · rw [List.getD_eq_default _ _ (by simpa using le_of_not_lt hj),
      List.getD_eq_default _ _ (le_of_not_lt hj)]
    simp [hj]

/-- Two images are equal when all four fields agree. -/
lemma Image.eq_of_fields {a b : Image} (h1 : a.width = b.width)
    (h2 : a.height = b.height) (h3 : a.channels = b.channels)
    (h4 : a.pixels = b.pixels) : a = b := by
  cases a; cases b; simp_all

/-! ## Rotation (claims C1, C9) -/

lemma rotateClockwise_length (img : Image) :
    (rotateClockwise img).pixels.length = img.pixels.length := by
  simp [rotateClockwise]

lemma sizeInv_rotateClockwise {img : Image} (hin : sizeInv img) :
    sizeInv (rotateClockwise img) := by
  unfold sizeInv at hin ⊢
  rw [rotateClockwise_length, hin]
  show img.width * img.height * img.channels = img.height * img.width * img.channels
  ring

/-- Per-write form of the clockwise-rotation loop: the destination byte at
column `height-1-y`, row `x`, channel `c` of the rotated image is the source
byte at column `x`, row `y`, channel `c`. -/
lemma rotateClockwise_pixAt {img : Image} (hin : sizeInv img) {x y c : ℕ}
    (hx : x < img.width) (hy : y < img.height) (hc : c < img.channels) :
    pixAt (rotateClockwise img) (img.height - 1 - y) x c = pixAt img x y c := by
  have hH : img.height - 1 - y < img.height := by omega
  have hD : (x * img.height + (img.height - 1 - y)) * img.channels + c
      < img.width * img.height * img.channels := idx_lt hx hH hc
  show (rotateClockwise img).pixels.getD
      ((x * img.height + (img.height - 1 - y)) * img.channels + c) 0 = _
  unfold rotateClockwise
  rw [rangeMap_getD _ _ _ (by rw [hin]; exact hD)]
  rw [addMul_mod _ hc, addMul_div _ hc, addMul_mod _ hH, addMul_div _ hH]
  have hyy : img.height - 1 - (img.height - 1 - y) = y := by omega
  rw [hyy]
  rfl

/-- **C1.**  `rotateClockwise` replaces the buffer by a new one with width and
height swapped (same byte count), and for all `x < width`, `y < height` and
every channel `c`, the destination pixel at row `x`, column `height-1-y`
receives the source pixel `(x, y)`. -/
theorem rotateClockwise_spec (img : Image) (hin : sizeInv img) :
    (rotateClockwise img).width = img.height ∧
    (rotateClockwise img).height = img.width ∧
    (rotateClockwise img).channels = img.channels ∧
    (rotateClockwise img).pixels.length = img.pixels.length ∧
    ∀ x y c, x < img.width → y < img.height → c < img.channels →
      (rotateClockwise img).pixels.getD
          ((x * img.height + (img.height - 1 - y)) * img.channels + c) 0
        = img.pixels.getD ((y * img.width + x) * img.channels + c) 0 := by
  refine ⟨rfl, rfl, rfl, rotateClockwise_length img, fun x y c hx hy hc => ?_⟩
  exact rotateClockwise_pixAt hin hx hy hc

/-- Witness for C1 on the 2×1 single-channel image `[5, 7]`. -/
theorem rotateClockwise_spec_witness :
    sizeInv ⟨2, 1, 1, [5, 7]⟩ ∧
      (rotateClockwise ⟨2, 1, 1, [5, 7]⟩).pixels.getD ((1 * 1 + (1 - 1 - 0)) * 1 + 0) 0
        = (⟨2, 1, 1, [5, 7]⟩ : Image).pixels.getD ((0 * 2 + 1) * 1 + 0) 0 :=
  ⟨by decide,
    (rotateClockwise_spec ⟨2, 1, 1, [5, 7]⟩ (by decide)).2.2.2.2 1 0 0
      (by decide) (by decide) (by decide)⟩

/-- Two clockwise rotations send the byte at column `x`, row `y` to column
`width-1-x`, row `height-1-y` (the 180° rotation). -/
lemma rotate2_pixAt {img : Image} (hin : sizeInv img) {x y c : ℕ}
    (hx : x < img.width) (hy : y < img.height) (hc : c < img.channels) :
    pixAt (rotateClockwise (rotateClockwise img)) (img.width - 1 - x) (img.height - 1 - y) c
      = pixAt img x y c := by
  have h1 := rotateClockwise_pixAt hin hx hy hc
  have h2 := @rotateClockwise_pixAt (rotateClockwise img)
      (sizeInv_rotateClockwise hin)
      (img.height - 1 - y) x c
      (by show img.height - 1 - y < img.height; omega)
      (by show x < img.width; exact hx)
      (by show c < img.channels; exact hc)
  exact h2.trans h1

/-- Four clockwise rotations leave every in-range byte in place. -/
lemma rotate4_pixAt {img : Image} (hin : sizeInv img) {x y c : ℕ}
    (hx : x < img.width) (hy : y < img.height) (hc : c < img.channels) :
    pixAt (rotateClockwise (rotateClockwise (rotateClockwise (rotateClockwise img)))) x y c
      = pixAt img x y c := by
  have hin2 : sizeInv (rotateClockwise (rotateClockwise img)) :=
    sizeInv_rotateClockwise (sizeInv_rotateClockwise hin)
  have e2 := rotate2_pixAt hin hx hy hc
  have e4 := @rotate2_pixAt (rotateClockwise (rotateClockwise img)) hin2
      (img.width - 1 - x) (img.height - 1 - y) c
      (by show img.width - 1 - x < img.width; omega)
      (by show img.height - 1 - y < img.height; omega)
      (by show c < img.channels; exact hc)
  have ex : img.width - 1 - (img.width - 1 - x) = x := by omega
  have ey : img.height - 1 - (img.height - 1 - y) = y := by omega
  rw [show (rotateClockwise (rotateClockwise img)).width = img.width from rfl,
    show (rotateClockwise (rotateClockwise img)).height = img.height from rfl,
    ex, ey] at e4
  exact e4.trans e2

/-- Four clockwise rotations are the identity on well-formed images. -/
lemma rotate4_eq {img : Image} (hin : sizeInv img) :
    rotateClockwise (rotateClockwise (rotateClockwise (rotateClockwise img))) = img := by
  apply Image.eq_of_fields (by rfl) (by rfl) (by rfl)
  have hlen : (rotateClockwise (rotateClockwise (rotateClockwise
      (rotateClockwise img)))).pixels.length = img.pixels.length := by
    simp [rotateClockwise_length]
  apply List.ext_getElem hlen
  intro j hj1 hj2
  have hj : j < img.width * img.height * img.channels := by rw [← hin]; exact hj2
  obtain ⟨hcC, hcW, hcH, hrec⟩ := split3 hj
  have efinal := rotate4_pixAt hin hcW hcH hcC
  rw [← List.getD_eq_getElem _ 0 hj1, ← List.getD_eq_getElem _ 0 hj2, ← hrec]
  exact efinal

/-- **C9.**  Four clockwise rotations restore the original image exactly;
`rotateCounterClockwise` is literally three clockwise rotations; hence a
counter-clockwise rotation followed by a clockwise one is the identity. -/
theorem rotate_roundtrip (img : Image) (hin : sizeInv img) :
    rotateClockwise (rotateClockwise (rotateClockwise (rotateClockwise img))) = img ∧
    rotateCounterClockwise img
      = rotateClockwise (rotateClockwise (rotateClockwise img)) ∧
    rotateClockwise (rotateCounterClockwise img) = img :=
  ⟨rotate4_eq hin, rfl, rotate4_eq hin⟩

/-- Witness for C9 on the 1×2 single-channel image `[3, 4]`. -/
theorem rotate_roundtrip_witness :
    sizeInv ⟨1, 2, 1, [3, 4]⟩ ∧
      rotateClockwise (rotateCounterClockwise ⟨1, 2, 1, [3, 4]⟩) = ⟨1, 2, 1, [3, 4]⟩ :=
  ⟨by decide, (rotate_roundtrip ⟨1, 2, 1, [3, 4]⟩ (by decide)).2.2⟩

/-! ## The size invariant (claim C10) -/

lemma sizeInv_updatePixelData (data : List ℕ) (w h ch : ℕ) :
    sizeInv (updatePixelData data w h ch) := by
  simp [sizeInv, updatePixelData]

lemma sizeInv_scale {img : Image} (hin : sizeInv img) (factor : Q) :
    sizeInv (scale img factor) := by
  unfold scale
  split
  · exact hin
  · simp [sizeInv]

lemma grayFold_length (ch : ℕ) (L : List ℕ) (ps : List ℕ) :
    (ps.foldl (fun l p => grayStep l (p * ch)) L).length = L.length := by
  induction ps generalizing L with
  | nil => rfl
  | cons p ps ih =>
    rw [List.foldl_cons, ih]
    simp [grayStep]

lemma applyFilter_gray_pixels (img : Image) :
    (applyFilter img FilterType.Grayscale).pixels
      = (List.range (img.width * img.height * img.channels / img.channels)).foldl
          (fun l p => grayStep l (p * img.channels)) img.pixels := rfl

lemma sizeInv_applyFilter {img : Image} (hin : sizeInv img) (t : FilterType) :
    sizeInv (applyFilter img t) := by
  cases t with
  | Grayscale =>
    unfold sizeInv
    rw [applyFilter_gray_pixels, grayFold_length]
    exact hin
  | Invert => simpa [sizeInv, applyFilter] using hin
  | Brightness => simpa [sizeInv, applyFilter] using hin
  | Contrast => simpa [sizeInv, applyFilter] using hin

lemma sizeInv_rotateCounterClockwise {img : Image} (hin : sizeInv img) :
    sizeInv (rotateCounterClockwise img) :=
  sizeInv_rotateClockwise (sizeInv_rotateClockwise (sizeInv_rotateClockwise hin))

/-- **C10.**  Every `Image` operation preserves the invariant that the byte
vector's length equals `width * height * channels`: the loaders and `scale`
build the replacement vector together with the new dimensions, the rotations
permute a vector of unchanged size while swapping the dimensions, the filters
map the vector in place, and `generateThumbnail` leaves its receiver
untouched and builds the thumbnail through `updatePixelData` and `scale`. -/
theorem sizeInv_preserved (img : Image) (hin : sizeInv img) :
    (∀ dec, sizeInv (loadFromFile dec img).2) ∧
    (∀ dec x y w h, sizeInvOutcome (loadRegion dec x y w h img)) ∧
    sizeInv (rotateClockwise img) ∧
    sizeInv (rotateCounterClockwise img) ∧
    (∀ factor, sizeInv (scale img factor)) ∧
    (∀ t, sizeInv (applyFilter img t)) ∧
    (∀ maxW maxH, sizeInv (generateThumbnail img maxW maxH).1 ∧
      sizeInv (generateThumbnail img maxW maxH).2) := by
  have hret : (img.pixels.length : ℤ)
      = (img.width : ℤ) * (img.height : ℤ) * (img.channels : ℤ) := by
    rw [hin]; push_cast; ring
  refine ⟨?_, ?_, sizeInv_rotateClockwise hin, sizeInv_rotateCounterClockwise hin,
    fun factor => sizeInv_scale hin factor, fun t => sizeInv_applyFilter hin t,
    fun maxW maxH => ⟨hin, sizeInv_scale (sizeInv_updatePixelData _ _ _ _) _⟩⟩
  · intro dec
    cases dec with
    | none => exact hin
    | some d => exact sizeInv_updatePixelData _ _ _ _
  · intro dec x y w h
    cases dec with
    | none => exact hret
    | some d =>
      simp only [loadRegion]
      split
      · exact hret
      · split
        · exact hin
        · next hprod =>
          simp only [sizeInvOutcome]
          rw [rangeMap_length]
          exact Int.toNat_of_nonneg (not_lt.mp hprod)

/-- Witness for C10 on the 1×1 single-channel image `[0]`. -/
theorem sizeInv_preserved_witness :
    sizeInv ⟨1, 1, 1, [0]⟩ ∧ sizeInv (rotateClockwise ⟨1, 1, 1, [0]⟩) ∧
      sizeInv (applyFilter ⟨1, 1, 1, [0]⟩ FilterType.Grayscale) :=
  ⟨by decide, (sizeInv_preserved ⟨1, 1, 1, [0]⟩ (by decide)).2.2.1,
    (sizeInv_preserved ⟨1, 1, 1, [0]⟩ (by decide)).2.2.2.2.2.1 FilterType.Grayscale⟩

/-! ## Filters (claims C3, C4) -/

/-- After processing the first `n` pixel blocks (of at least 3 channels
each), a byte inside a processed block at channel 0, 1 or 2 holds the gray
value of its block's **original** first three bytes, and every other byte is
untouched.  The blocks are pairwise disjoint and each block's reads happen
before its writes, so each block sees the original data. -/
lemma grayFold_getD {ch : ℕ} (hch : 3 ≤ ch) (l : List ℕ) :
    ∀ n : ℕ, n * ch ≤ l.length → ∀ j,
      ((List.range n).foldl (fun acc p => grayStep acc (p * ch)) l).getD j 0
        = if j < n * ch ∧ j % ch < 3
          then grayVal (l.getD (j / ch * ch) 0) (l.getD (j / ch * ch + 1) 0)
                 (l.getD (j / ch * ch + 2) 0)
          else l.getD j 0 := by
  intro n
  induction n with
  | zero => intro _ j; simp
  | succ n ih =>
    intro hn j
    have hsucc : (n + 1) * ch = n * ch + ch := by ring
    have hn' : n * ch ≤ l.length := by omega
    rw [List.range_succ, List.foldl_append, List.foldl_cons, List.foldl_nil]
    have hFlen : ((List.range n).foldl (fun acc p => grayStep acc (p * ch)) l).length
        = l.length := grayFold_length ch l (List.range n)
    set F := (List.range n).foldl (fun acc p => grayStep acc (p * ch)) l with hF
    have hr0 : F.getD (n * ch) 0 = l.getD (n * ch) 0 := by
      rw [ih hn' (n * ch)]
      have hno : ¬ (n * ch < n * ch) := by omega
      simp [hno]
    have hr1 : F.getD (n * ch + 1) 0 = l.getD (n * ch + 1) 0 := by
      rw [ih hn' (n * ch + 1)]
      have hno : ¬ (n * ch + 1 < n * ch) := by omega
      simp [hno]
    have hr2 : F.getD (n * ch + 2) 0 = l.getD (n * ch + 2) 0 := by
      rw [ih hn' (n * ch + 2)]
      have hno : ¬ (n * ch + 2 < n * ch) := by omega
      simp [hno]
    show (grayStep F (n * ch)).getD j 0 = _
    rw [show grayStep F (n * ch)
        = ((F.set (n * ch) (grayVal (F.getD (n * ch) 0) (F.getD (n * ch + 1) 0)
              (F.getD (n * ch + 2) 0))).set (n * ch + 1)
            (grayVal (F.getD (n * ch) 0) (F.getD (n * ch + 1) 0) (F.getD (n * ch + 2) 0))).set
            (n * ch + 2)
            (grayVal (F.getD (n * ch) 0) (F.getD (n * ch + 1) 0) (F.getD (n * ch + 2) 0))
      from rfl]
    rw [hr0, hr1, hr2]
    set g := grayVal (l.getD (n * ch) 0) (l.getD (n * ch + 1) 0) (l.getD (n * ch + 2) 0)
      with hg
    rw [getD_set, getD_set, getD_set]
    simp only [List.length_set]
    by_cases hcase : n * ch ≤ j ∧ j < n * ch + ch ∧ j % ch < 3
    · -- j is one of the three bytes block n writes
      obtain ⟨hb1, hb2, hb3⟩ := hcase
      have hjk : j = n * ch + (j - n * ch) := by omega
      have hmod : j % ch = j - n * ch := by
        nth_rewrite 1 [hjk]
        exact addMul_mod n (by omega)
      have hdiv : j / ch = n := by
        rw [hjk]; exact addMul_div n (by omega)
      have hjltF : j < F.length := by rw [hFlen]; omega
      have hwritten : n * ch + 2 = j ∨ n * ch + 1 = j ∨ n * ch = j := by omega
      have hcond : j < (n + 1) * ch ∧ j % ch < 3 := ⟨by omega, hb3⟩
      rw [if_pos hcond, hdiv]
      rcases hwritten with hw | hw | hw
      · rw [if_pos ⟨hw, hjltF⟩]
      · have hne2 : ¬ (n * ch + 2 = j ∧ j < F.length) := fun hx => by omega
        rw [if_neg hne2, if_pos ⟨hw, hjltF⟩]
      · have hne2 : ¬ (n * ch + 2 = j ∧ j < F.length) := fun hx => by omega
        have hne1 : ¬ (n * ch + 1 = j ∧ j < F.length) := fun hx => by omega
        rw [if_neg hne2, if_neg hne1, if_pos ⟨hw, hjltF⟩]
    · -- j is untouched by block n
      push_neg at hcase
      have hnw2 : ¬ (n * ch + 2 = j ∧ j < F.length) := by
        rintro ⟨hw, _⟩
        have h2 : j % ch = 2 := by rw [← hw]; exact addMul_mod n (by omega)
        omega
      have hnw1 : ¬ (n * ch + 1 = j ∧ j < F.length) := by
        rintro ⟨hw, _⟩
        have h2 : j % ch = 1 := by rw [← hw]; exact addMul_mod n (by omega)
        omega
      have hnw0 : ¬ (n * ch = j ∧ j < F.length) := by
        rintro ⟨hw, _⟩
        have h2 : j % ch = 0 := by
          rw [← hw]; simp
        omega
      rw [if_neg hnw2, if_neg hnw1, if_neg hnw0, ih hn' j]
      by_cases hj : j < n * ch ∧ j % ch < 3
      · rw [if_pos hj, if_pos ⟨by omega, hj.2⟩]
      · rw [if_neg hj]
        have hno : ¬ (j < (n + 1) * ch ∧ j % ch < 3) := by
          rintro ⟨ha, hb⟩
          rcases Nat.lt_or_ge j (n * ch) with h | h
          · exact hj ⟨h, hb⟩
          · have h3 := hcase h (by omega)
            omega
        rw [if_neg hno]

/-- The Grayscale filter on a well-formed image with at least 3 channels:
channels 0, 1, 2 of pixel `p` receive the `double`-precision gray value of
the pixel's original first three bytes; any further channel (alpha) is
unchanged. -/
lemma applyFilter_gray_getD {img : Image} (hin : sizeInv img) (hch : 3 ≤ img.channels)
    {p c : ℕ} (hp : p < img.width * img.height) (hc : c < img.channels) :
    (applyFilter img FilterType.Grayscale).pixels.getD (p * img.channels + c) 0
      = if c < 3
        then grayVal (img.pixels.getD (p * img.channels) 0)
               (img.pixels.getD (p * img.channels + 1) 0)
               (img.pixels.getD (p * img.channels + 2) 0)
        else img.pixels.getD (p * img.channels + c) 0 := by
  rw [applyFilter_gray_pixels]
  have hchpos : 0 < img.channels := by omega
  have hiter : img.width * img.height * img.channels / img.channels
      = img.width * img.height := Nat.mul_div_cancel _ hchpos
  rw [hiter]
  have hlen : img.width * img.height * img.channels ≤ img.pixels.length := le_of_eq hin.symm
  rw [grayFold_getD hch img.pixels (img.width * img.height) hlen (p * img.channels + c)]
  have hmod : (p * img.channels + c) % img.channels = c := addMul_mod _ hc
  have hdivv : (p * img.channels + c) / img.channels = p := addMul_div _ hc
  have hjlt : p * img.channels + c < img.width * img.height * img.channels := by
    have h1 : p * img.channels + c < (p + 1) * img.channels := by
      rw [Nat.succ_mul]; omega
    have h2 : (p + 1) * img.channels ≤ img.width * img.height * img.channels :=
      Nat.mul_le_mul_right _ hp
    omega
  rw [hmod, hdivv]
  by_cases h3 : c < 3
  · rw [if_pos ⟨hjlt, h3⟩, if_pos h3]
  · rw [if_neg (fun hx => h3 hx.2), if_neg h3]

set_option maxRecDepth 10000 in
/-- The `double` evaluation of the Contrast formula coincides with its exact
arithmetic value on every byte (checked exhaustively). -/
lemma contrast_exact_bytes :
    ∀ b < 256, contrastVal b
      = (min 255 (max 0 (((Q.ofInt ((b : ℤ) - 128)).mul ⟨6, 5⟩).add
          (Q.ofInt 128)).cTrunc)).toNat := by
  decide

/-- **C3 (amended).**  `applyFilter` acts per byte as follows.  Grayscale
(on a buffer with at least 3 channels): channels 0, 1, 2 of every pixel are
set to the IEEE-754 `double` evaluation of `0.3·R + 0.59·G + 0.11·B`
truncated to an integer, computed from the pixel's original bytes, and any
further channel (alpha) is untouched.  Invert replaces every byte `b` by
`255 - b` and applying it twice restores every byte.  Brightness replaces
every byte by `min(255, b + 50)`.  Contrast replaces every byte by the
`double` evaluation of `clamp(0, 255, (b-128)*1.2 + 128)`, which agrees with
the exact arithmetic value of that formula for every byte `b < 256`. -/
theorem applyFilter_formulas (img : Image) (hin : sizeInv img) :
    (3 ≤ img.channels → ∀ p c, p < img.width * img.height → c < img.channels →
      (applyFilter img FilterType.Grayscale).pixels.getD (p * img.channels + c) 0
        = if c < 3
          then grayVal (img.pixels.getD (p * img.channels) 0)
                 (img.pixels.getD (p * img.channels + 1) 0)
                 (img.pixels.getD (p * img.channels + 2) 0)
          else img.pixels.getD (p * img.channels + c) 0) ∧
    (applyFilter img FilterType.Invert).pixels = img.pixels.map (fun b => 255 - b) ∧
    ((∀ b ∈ img.pixels, b ≤ 255) →
      applyFilter (applyFilter img FilterType.Invert) FilterType.Invert = img) ∧
    (applyFilter img FilterType.Brightness).pixels
      = img.pixels.map (fun b => min 255 (b + 50)) ∧
    (applyFilter img FilterType.Contrast).pixels = img.pixels.map contrastVal ∧
    (∀ b < 256, contrastVal b
      = (min 255 (max 0 (((Q.ofInt ((b : ℤ) - 128)).mul ⟨6, 5⟩).add
          (Q.ofInt 128)).cTrunc)).toNat) := by
  refine ⟨fun hch p c hp hc => applyFilter_gray_getD hin hch hp hc, rfl, ?_, rfl, rfl, ?_⟩
  · intro hbytes
    apply Image.eq_of_fields (by rfl) (by rfl) (by rfl)
    show (img.pixels.map (fun b => 255 - b)).map (fun b => 255 - b) = img.pixels
    rw [List.map_map]
    have hid : ∀ b ∈ img.pixels,
        ((fun b => 255 - b) ∘ (fun b => 255 - b)) b = id b := by
      intro b hb
      have hb255 := hbytes b hb
      simp only [Function.comp_apply, id_eq]
      omega
    rw [List.map_congr_left hid, List.map_id]
  · exact contrast_exact_bytes

/-- Witness for C3 on the 1×1 3-channel image `[10, 20, 30]` (gray value
`trunc(3 + 11.8 + 3.3) = 18`). -/
theorem applyFilter_formulas_witness :
    sizeInv ⟨1, 1, 3, [10, 20, 30]⟩ ∧
    ((applyFilter ⟨1, 1, 3, [10, 20, 30]⟩ FilterType.Grayscale).pixels.getD
        (0 * (⟨1, 1, 3, [10, 20, 30]⟩ : Image).channels + 0) 0
      = if 0 < 3
        then grayVal ((⟨1, 1, 3, [10, 20, 30]⟩ : Image).pixels.getD
               (0 * (⟨1, 1, 3, [10, 20, 30]⟩ : Image).channels) 0)
               ((⟨1, 1, 3, [10, 20, 30]⟩ : Image).pixels.getD
               (0 * (⟨1, 1, 3, [10, 20, 30]⟩ : Image).channels + 1) 0)
               ((⟨1, 1, 3, [10, 20, 30]⟩ : Image).pixels.getD
               (0 * (⟨1, 1, 3, [10, 20, 30]⟩ : Image).channels + 2) 0)
        else (⟨1, 1, 3, [10, 20, 30]⟩ : Image).pixels.getD
               (0 * (⟨1, 1, 3, [10, 20, 30]⟩ : Image).channels + 0) 0) ∧
    applyFilter (applyFilter ⟨1, 1, 3, [10, 20, 30]⟩ FilterType.Invert) FilterType.Invert
      = ⟨1, 1, 3, [10, 20, 30]⟩ :=
  ⟨by decide,
    (applyFilter_formulas ⟨1, 1, 3, [10, 20, 30]⟩ (by decide)).1 (by decide) 0 0
      (by decide) (by decide),
    (applyFilter_formulas ⟨1, 1, 3, [10, 20, 30]⟩ (by decide)).2.2.1 (by decide)⟩

/-- **C3 counterexample.**  At the pixel `(R, G, B) = (0, 23, 13)` the
Grayscale filter stores `14` (the `double` evaluation of
`0.3·0 + 0.59·23 + 0.11·13 = 15` falls just below `15` and the cast
truncates), while the claim's exact truncated weighted sum is `15`. -/
theorem grayscale_not_exact :
    (applyFilter ⟨1, 1, 3, [0, 23, 13]⟩ FilterType.Grayscale).pixels = [14, 14, 14] ∧
    ((((Q.ofInt 0).mul ⟨3, 10⟩).add (((Q.ofInt 23).mul ⟨59, 100⟩).add
        ((Q.ofInt 13).mul ⟨11, 100⟩))).cTrunc).toNat = 15 ∧
    (applyFilter ⟨1, 1, 3, [0, 23, 13]⟩ FilterType.Grayscale).pixels.getD 0 0
      ≠ ((((Q.ofInt 0).mul ⟨3, 10⟩).add (((Q.ofInt 23).mul ⟨59, 100⟩).add
          ((Q.ofInt 13).mul ⟨11, 100⟩))).cTrunc).toNat :=
  ⟨by decide, by decide, by decide⟩

/-- **C4 (code bug).**  On a 1×1 single-channel image the Grayscale loop
reads `m_pixels[1]` and `m_pixels[2]` although the pixel vector holds a
single byte: index 2 is among the loop's accessed indices but is not below
the buffer length `1*1*1`. -/
theorem grayscale_reads_out_of_bounds :
    2 ∈ grayReads 1 1 1 ∧ ¬ (∀ j ∈ grayReads 1 1 1, j < 1 * 1 * 1) := by
  exact ⟨by decide, by decide⟩

/-! ## Saving (claim C8) -/

/-- **C8.**  `saveAs` fails without invoking any writer on GIF, TIFF, WEBP
and HEIF; it dispatches PNG, JPEG and BMP to the corresponding writer with
the current width, height, channels and bytes (PNG with row stride
`width*channels`, JPEG with fixed quality 90), returning failure exactly when
the writer returns 0.  No `ImageFormat` value dispatches to the TGA writer:
the enum declares no TGA enumerator, and the `case ImageFormat::TGA:` in the
source refers to a nonexistent value (the code does not compile). -/
theorem saveAs_spec (writer : WriterCall → ℤ) (img : Image) :
    saveAs writer img ImageFormat.GIF = (none, false) ∧
    saveAs writer img ImageFormat.TIFF = (none, false) ∧
    saveAs writer img ImageFormat.WEBP = (none, false) ∧
    saveAs writer img ImageFormat.HEIF = (none, false) ∧
    saveAs writer img ImageFormat.PNG
      = (some (WriterCall.png img.width img.height img.channels img.pixels
          (img.width * img.channels)),
         writer (WriterCall.png img.width img.height img.channels img.pixels
          (img.width * img.channels)) != 0) ∧
    saveAs writer img ImageFormat.JPEG
      = (some (WriterCall.jpg img.width img.height img.channels img.pixels 90),
         writer (WriterCall.jpg img.width img.height img.channels img.pixels 90) != 0) ∧
    saveAs writer img ImageFormat.BMP
      = (some (WriterCall.bmp img.width img.height img.channels img.pixels),
         writer (WriterCall.bmp img.width img.height img.channels img.pixels) != 0) ∧
    (∀ format, Option.all (fun c => ! c.isTga) (saveAs writer img format).1 = true) := by
  refine ⟨rfl, rfl, rfl, rfl, rfl, rfl, rfl, fun format => ?_⟩
  cases format <;> rfl

/-! ## Sorting (claim C6) -/

/-- **C6 counterexample.**  The always-false comparator is a strict weak
ordering under which all entries are equivalent; for the input `[0, 1]` the
output `[1, 0]` satisfies the `std::sort` contract (a sorted permutation) but
reverses the two equivalent entries, so the contract does not guarantee
stability. -/
theorem sort_not_stable :
    StrictWeakOrder (fun _ _ => false) ∧
    sortOutcome (fun _ _ => false) [0, 1] [1, 0] ∧
    ¬ StableWrt (fun _ _ => false) [0, 1] [1, 0] := by
  refine ⟨⟨fun a => rfl, fun a b c h1 _ => by simp at h1,
      fun a b c _ _ _ _ => ⟨rfl, rfl⟩⟩, ⟨List.Perm.swap 0 1 [], ?_⟩, fun hst => ?_⟩
  · show List.Chain' _ [1, 0]
    rw [List.chain'_cons]
    exact ⟨rfl, List.chain'_singleton 0⟩
  · exact absurd (hst 0) (by decide)

/-- **C6 (amended).**  For every comparator implementing a strict weak
ordering and every entry list, the `std::sort` contract is satisfiable:
some permutation of the entries sorted with respect to the comparator
exists.  (Which sorted permutation the call produces is unspecified, and
stability is not guaranteed — see the counterexample.) -/
theorem sort_exists (cmp : ℕ → ℕ → Bool) (hswo : StrictWeakOrder cmp) (pre : List ℕ) :
    ∃ post, sortOutcome cmp pre post := by
  obtain ⟨hirr, htrans, hincomp⟩ := hswo
  have htot : Total (fun a b : ℕ => cmp b a = false) := by
    intro a b
    cases hba : cmp b a with
    | false => exact Or.inl hba
    | true =>
      cases hab : cmp a b with
      | false => exact Or.inr hab
      | true => exact absurd (htrans a b a hab hba) (by simp [hirr a])
  have htr : ∀ {a b c : ℕ}, cmp b a = false → cmp c b = false → cmp c a = false := by
    intro a b c h1 h2
    cases hca : cmp c a with
    | false => rfl
    | true =>
      cases hab : cmp a b with
      | true => exact absurd (htrans c a b hca hab) (by simp [h2])
      | false =>
        cases hbc : cmp b c with
        | true => exact absurd (htrans b c a hbc hca) (by simp [h1])
        | false => exact absurd (hincomp a b c hab h1 hbc h2).2 (by simp [hca])
  haveI : IsTotal ℕ (fun a b : ℕ => cmp b a = false) := ⟨htot⟩
  haveI : IsTrans ℕ (fun a b : ℕ => cmp b a = false) := ⟨fun _ _ _ h1 h2 => htr h1 h2⟩
  refine ⟨List.insertionSort (fun a b => cmp b a = false) pre,
    List.perm_insertionSort _ pre, ?_⟩
  exact (List.sorted_insertionSort _ pre).chain'

/-- Witness for C6 on the natural order comparator and the list `[2, 1]`. -/
theorem sort_exists_witness :
    StrictWeakOrder (fun a b => decide (a < b)) ∧
      ∃ post, sortOutcome (fun a b => decide (a < b)) [2, 1] post := by
  have hswo : StrictWeakOrder (fun a b => decide (a < b)) := by
    refine ⟨fun a => decide_eq_false (by omega), fun a b c h1 h2 => ?_,
      fun a b c h1 h2 h3 h4 => ?_⟩
    · simp only [decide_eq_true_eq] at *
      omega
    · simp only [decide_eq_false_iff_not] at h1 h2 h3 h4
      exact ⟨decide_eq_false (by omega), decide_eq_false (by omega)⟩
  exact ⟨hswo, sort_exists _ hswo [2, 1]⟩

/-! ## Partial loading (claim C7) -/

/-- The branch of `loadRegion` where the validation passes and
`w * h * channels` is nonnegative (no throw), written out. -/
lemma loadRegion_pos_eq (d : Decoded) (x y w h : ℤ) (img : Image)
    (hok : ¬ (x < 0 ∨ y < 0 ∨ x + w > (d.width : ℤ) ∨ y + h > (d.height : ℤ)))
    (hprod : ¬ (w * h * (d.channels : ℤ) < 0)) :
    loadRegion (some d) x y w h img
      = LoadOutcome.ret true w h (d.channels : ℤ)
        ((List.range ((w * h * (d.channels : ℤ)).toNat)).map (fun i =>
          if i < h.toNat * (w.toNat * d.channels) then
            d.data.getD (((y.toNat + i / (w.toNat * d.channels)) * d.width + x.toNat)
              * d.channels + i % (w.toNat * d.channels)) 0
          else 0)) := by
  show (if x < 0 ∨ y < 0 ∨ x + w > (d.width : ℤ) ∨ y + h > (d.height : ℤ) then
      LoadOutcome.ret false img.width img.height img.channels img.pixels
    else if w * h * (d.channels : ℤ) < 0 then LoadOutcome.thrown img
    else LoadOutcome.ret true w h (d.channels : ℤ)
      ((List.range ((w * h * (d.channels : ℤ)).toNat)).map (fun i =>
        if i < h.toNat * (w.toNat * d.channels) then
          d.data.getD (((y.toNat + i / (w.toNat * d.channels)) * d.width + x.toNat)
            * d.channels + i % (w.toNat * d.channels)) 0
        else 0))) = _
  rw [if_neg hok, if_neg hprod]

/-- **C7.**  The complete behaviour of `loadPartial`.  It fails leaving the
image untouched when the decode fails or when the requested region violates
`x ≥ 0 ∧ y ≥ 0 ∧ x + w ≤ decodedWidth ∧ y + h ≤ decodedHeight`.  When the
validation passes — and it does **not** reject negative `w` or `h` — three
things can happen: with `w * h * channels < 0` (exactly one of `w`, `h`
negative) the `std::vector` size constructor throws `std::length_error` and
the function never returns, contradicting the claim's fail-or-succeed
dichotomy and the spec's return-value-only failure semantics (the code bug);
with `w ≥ 0` and `h ≥ 0` it succeeds and the state is exactly the `w × h`
sub-rectangle (the claim's success case: the result's pixel at row `r`,
column `cx` equals the decoded pixel at row `y + r`, column `x + cx`, for
every channel); and with both `w < 0` and `h < 0` it returns **true** with
the negative dimensions stored and `w * h * channels` zero bytes — no
sub-rectangle at all. -/
theorem loadRegion_spec (dec : Option Decoded) (x y w h : ℤ) (img : Image) :
    (dec = none → loadRegion dec x y w h img
      = LoadOutcome.ret false img.width img.height img.channels img.pixels) ∧
    (∀ d, dec = some d →
      ((x < 0 ∨ y < 0 ∨ x + w > (d.width : ℤ) ∨ y + h > (d.height : ℤ)) →
        loadRegion dec x y w h img
          = LoadOutcome.ret false img.width img.height img.channels img.pixels) ∧
      (¬ (x < 0 ∨ y < 0 ∨ x + w > (d.width : ℤ) ∨ y + h > (d.height : ℤ)) →
        (w * h * (d.channels : ℤ) < 0 →
          loadRegion dec x y w h img = LoadOutcome.thrown img) ∧
        (0 ≤ w → 0 ≤ h →
          ∃ P, loadRegion dec x y w h img
              = LoadOutcome.ret true w h (d.channels : ℤ) P ∧
            P.length = w.toNat * h.toNat * d.channels ∧
            ∀ r cx c, r < h.toNat → cx < w.toNat → c < d.channels →
              P.getD ((r * w.toNat + cx) * d.channels + c) 0
                = d.data.getD
                  (((y.toNat + r) * d.width + (x.toNat + cx)) * d.channels + c) 0) ∧
        (w < 0 → h < 0 →
          loadRegion dec x y w h img = LoadOutcome.ret true w h (d.channels : ℤ)
            (List.replicate ((w * h * (d.channels : ℤ)).toNat) 0)))) := by
  refine ⟨fun hnone => by rw [hnone]; rfl, fun d hsome => ?_⟩
  subst hsome
  constructor
  · intro hviol
    simp only [loadRegion]
    rw [if_pos hviol]
  · intro hok
    refine ⟨fun hneg => ?_, fun hw hh => ?_, fun hw hh => ?_⟩
    · simp only [loadRegion]
      rw [if_neg hok, if_pos hneg]
    · -- `w ≥ 0`, `h ≥ 0`: the claim's success case.
      have hprod : ¬ (w * h * (d.channels : ℤ) < 0) := by
        have h0 : (0 : ℤ) ≤ w * h := mul_nonneg hw hh
        have h1 : (0 : ℤ) ≤ w * h * (d.channels : ℤ) :=
          mul_nonneg h0 (Int.natCast_nonneg _)
        omega
      have hsz : (w * h * (d.channels : ℤ)).toNat = w.toNat * h.toNat * d.channels := by
        have hcast : (((w * h * (d.channels : ℤ)).toNat : ℤ))
            = ((w.toNat * h.toNat * d.channels : ℕ) : ℤ) := by
          rw [Int.toNat_of_nonneg (not_lt.mp hprod)]
          push_cast
          rw [Int.toNat_of_nonneg hw, Int.toNat_of_nonneg hh]
        exact Int.ofNat_inj.mp hcast
      refine ⟨_, loadRegion_pos_eq d x y w h img hok hprod, ?_, fun r cx c hr hcx hc => ?_⟩
      · rw [rangeMap_length, hsz]
      · have hinner : cx * d.channels + c < w.toNat * d.channels := by
          have h1 : cx * d.channels + c < (cx + 1) * d.channels := by
            rw [Nat.succ_mul]; omega
          have h2 : (cx + 1) * d.channels ≤ w.toNat * d.channels :=
            Nat.mul_le_mul_right _ hcx
          omega
        have hjh : (r * w.toNat + cx) * d.channels + c
            < h.toNat * (w.toNat * d.channels) := by
          calc (r * w.toNat + cx) * d.channels + c
              = r * (w.toNat * d.channels) + (cx * d.channels + c) := by ring
            _ < (r + 1) * (w.toNat * d.channels) := by rw [Nat.succ_mul]; omega
            _ ≤ h.toNat * (w.toNat * d.channels) := Nat.mul_le_mul_right _ hr
        have hjtot : (r * w.toNat + cx) * d.channels + c
            < (w * h * (d.channels : ℤ)).toNat := by
          rw [hsz]
          calc (r * w.toNat + cx) * d.channels + c < h.toNat * w.toNat * d.channels :=
              idx_lt hr hcx hc
            _ = w.toNat * h.toNat * d.channels := by ring
        have hjflat : (r * w.toNat + cx) * d.channels + c
            = r * (w.toNat * d.channels) + (cx * d.channels + c) := by ring
        rw [rangeMap_getD _ _ _ hjtot, if_pos hjh, hjflat,
          addMul_div _ hinner, addMul_mod _ hinner]
        congr 1
        ring
    · -- `w < 0` and `h < 0`: a successful return with no sub-rectangle.
      have hprod : ¬ (w * h * (d.channels : ℤ) < 0) := by
        have h0 : (0 : ℤ) < w * h := mul_pos_of_neg_of_neg hw hh
        have h1 : (0 : ℤ) ≤ w * h * (d.channels : ℤ) :=
          mul_nonneg h0.le (Int.natCast_nonneg _)
        omega
      rw [loadRegion_pos_eq d x y w h img hok hprod]
      have hzero : h.toNat = 0 := Int.toNat_of_nonpos hh.le
      congr 1
      have hcong : ∀ i ∈ List.range ((w * h * (d.channels : ℤ)).toNat),
          (if i < h.toNat * (w.toNat * d.channels) then
            d.data.getD (((y.toNat + i / (w.toNat * d.channels)) * d.width + x.toNat)
              * d.channels + i % (w.toNat * d.channels)) 0
          else 0) = (fun _ : ℕ => (0 : ℕ)) i := by
        intro i _
        have hlt : ¬ i < h.toNat * (w.toNat * d.channels) := by
          rw [hzero, Nat.zero_mul]
          exact Nat.not_lt_zero i
        simp only [if_neg hlt]
      rw [List.map_congr_left hcong, List.map_const', List.length_range]

/-- Witness for C7: on a 10×10 three-channel decode,
`loadPartial(path, 5, 0, -2, 2)` passes the validation
(`5 + (-2) = 3 ≤ 10`) and throws (`w*h*channels = -12 < 0`); on a 2×2
single-channel decode `[1, 2, 3, 4]`, `loadPartial(path, -1, 0, 2, 2)` fails
leaving the image untouched and `loadPartial(path, 1, 0, 1, 2)` succeeds with
the right column `[2, 4]`. -/
theorem loadRegion_spec_witness :
    loadRegion (some ⟨10, 10, 3, []⟩) 5 0 (-2) 2 ⟨0, 0, 0, []⟩
      = LoadOutcome.thrown ⟨0, 0, 0, []⟩ ∧
    loadRegion (some ⟨2, 2, 1, [1, 2, 3, 4]⟩) (-1) 0 2 2 ⟨0, 0, 0, []⟩
      = LoadOutcome.ret false 0 0 0 [] ∧
    (∃ P, loadRegion (some ⟨2, 2, 1, [1, 2, 3, 4]⟩) 1 0 1 2 ⟨0, 0, 0, []⟩
        = LoadOutcome.ret true 1 2 1 P ∧
      P.length = 2 ∧
      ∀ r cx c, r < 2 → cx < 1 → c < 1 →
        P.getD ((r * 1 + cx) * 1 + c) 0
          = [1, 2, 3, 4].getD (((0 + r) * 2 + (1 + cx)) * 1 + c) 0) :=
  ⟨(((loadRegion_spec (some ⟨10, 10, 3, []⟩) 5 0 (-2) 2 ⟨0, 0, 0, []⟩).2 _ rfl).2
      (by decide)).1 (by decide),
    ((loadRegion_spec (some ⟨2, 2, 1, [1, 2, 3, 4]⟩) (-1) 0 2 2 ⟨0, 0, 0, []⟩).2 _ rfl).1
      (by decide),
    (((loadRegion_spec (some ⟨2, 2, 1, [1, 2, 3, 4]⟩) 1 0 1 2 ⟨0, 0, 0, []⟩).2 _ rfl).2
      (by decide)).2.1 (by decide) (by decide)⟩

/-! ## Fraction arithmetic in `ℚ` (transport lemmas for claims C2, C5) -/

namespace Q

lemma toRat_ofInt (n : ℤ) : (ofInt n).toRat = n := by
  simp [toRat, ofInt]

lemma castDen_pos {a : Q} (ha : 0 < a.den) : (0 : ℚ) < a.den := by exact_mod_cast ha

lemma castDen_ne_zero {a : Q} (ha : 0 < a.den) : (a.den : ℚ) ≠ 0 :=
  (castDen_pos ha).ne'

lemma toRat_add {a b : Q} (ha : 0 < a.den) (hb : 0 < b.den) :
    (a.add b).toRat = a.toRat + b.toRat := by
  have ha' := castDen_ne_zero ha
  have hb' := castDen_ne_zero hb
  unfold toRat add
  push_cast
  field_simp

lemma toRat_sub {a b : Q} (ha : 0 < a.den) (hb : 0 < b.den) :
    (a.sub b).toRat = a.toRat - b.toRat := by
  have ha' := castDen_ne_zero ha
  have hb' := castDen_ne_zero hb
  unfold toRat sub
  push_cast
  field_simp
  ring

lemma toRat_mul {a b : Q} (ha : 0 < a.den) (hb : 0 < b.den) :
    (a.mul b).toRat = a.toRat * b.toRat := by
  have ha' := castDen_ne_zero ha
  have hb' := castDen_ne_zero hb
  unfold toRat mul
  push_cast
  field_simp

lemma toRat_div {a b : Q} (ha : 0 < a.den) (hb : 0 < b.den) (hbn : b.num ≠ 0) :
    (a.div b).toRat = a.toRat / b.toRat := by
  have ha' := castDen_ne_zero ha
  have hb' := castDen_ne_zero hb
  have hbn' : (b.num : ℚ) ≠ 0 := by exact_mod_cast hbn
  unfold toRat div
  split
  · push_cast
    field_simp
  · push_cast
    field_simp

lemma den_add_pos {a b : Q} (ha : 0 < a.den) (hb : 0 < b.den) : 0 < (a.add b).den :=
  mul_pos ha hb

lemma den_sub_pos {a b : Q} (ha : 0 < a.den) (hb : 0 < b.den) : 0 < (a.sub b).den :=
  mul_pos ha hb

lemma den_mul_pos {a b : Q} (ha : 0 < a.den) (hb : 0 < b.den) : 0 < (a.mul b).den :=
  mul_pos ha hb

lemma den_div_pos {a b : Q} (ha : 0 < a.den) (hbn : b.num ≠ 0) : 0 < (a.div b).den := by
  unfold div
  split
  · next h => exact mul_pos ha (by omega)
  · next h => exact mul_pos ha (by omega)

lemma lt_iff {a b : Q} (ha : 0 < a.den) (hb : 0 < b.den) :
    Q.lt a b ↔ a.toRat < b.toRat := by
  unfold lt toRat
  rw [div_lt_div_iff₀ (castDen_pos ha) (castDen_pos hb)]
  constructor <;> intro h <;> exact_mod_cast h

lemma le_iff {a b : Q} (ha : 0 < a.den) (hb : 0 < b.den) :
    Q.le a b ↔ a.toRat ≤ b.toRat := by
  unfold le toRat
  rw [div_le_div_iff₀ (castDen_pos ha) (castDen_pos hb)]
  constructor <;> intro h <;> exact_mod_cast h

lemma floor_toRat {q : Q} (hden : 0 < q.den) : q.floor = ⌊q.toRat⌋ := by
  obtain ⟨d, hd⟩ : ∃ d : ℕ, q.den = (d : ℤ) :=
    ⟨q.den.toNat, (Int.toNat_of_nonneg hden.le).symm⟩
  unfold floor toRat
  rw [hd, Int.fdiv_eq_ediv _ (by positivity),
    show ((d : ℤ) : ℚ) = (d : ℚ) from by push_cast; rfl]
  exact (Rat.floor_intCast_div_natCast q.num d).symm

lemma num_eq_zero_iff {q : Q} (hden : 0 < q.den) : q.num = 0 ↔ q.toRat = 0 := by
  unfold toRat
  rw [div_eq_zero_iff]
  constructor
  · intro h; left; exact_mod_cast h
  · rintro (h | h)
    · exact_mod_cast h
    · exact absurd h (castDen_ne_zero hden)

lemma cTrunc_int {q : Q} (hden : 0 < q.den) {z : ℤ} (hz : q.toRat = z) :
    q.cTrunc = z := by
  have hnum : q.num = z * q.den := by
    have h1 : (q.num : ℚ) = z * q.den := by
      rw [show ((q.num : ℚ)) = q.toRat * q.den from by
        unfold toRat; field_simp, hz]
    exact_mod_cast h1
  unfold cTrunc
  rw [hnum, Int.mul_tdiv_cancel _ (by omega)]

lemma cTrunc_le {q : Q} (hden : 0 < q.den) (h0 : 0 ≤ q.toRat) {z : ℤ}
    (hz : q.toRat < z + 1) : q.cTrunc ≤ z := by
  have hnum : 0 ≤ q.num := by
    by_contra hneg
    push_neg at hneg
    have hlt : q.toRat < 0 :=
      div_neg_of_neg_of_pos (by exact_mod_cast hneg) (castDen_pos hden)
    linarith
  have h1 : q.cTrunc = ⌊q.toRat⌋ := by
    unfold cTrunc
    rw [Int.tdiv_eq_ediv hnum hden.le, ← Int.fdiv_eq_ediv _ hden.le]
    exact floor_toRat hden
  rw [h1, Int.floor_le_iff]
  exact_mod_cast hz

lemma toRat_abs {q : Q} (hden : 0 < q.den) :
    (⟨|q.num|, q.den⟩ : Q).toRat = |q.toRat| := by
  unfold toRat
  rw [abs_div, abs_of_pos (castDen_pos hden)]
  norm_cast

end Q

lemma pow2_den_pos (k : ℤ) : 0 < (pow2 k).den := by
  cases k with
  | ofNat n => exact one_pos
  | negSucc n => show (0 : ℤ) < 2 ^ (n + 1); positivity

lemma pow2_toRat (k : ℤ) : (pow2 k).toRat = (2 : ℚ) ^ k := by
  cases k with
  | ofNat n =>
    show ((2 ^ n : ℤ) : ℚ) / ((1 : ℤ) : ℚ) = (2 : ℚ) ^ (Int.ofNat n)
    rw [show (Int.ofNat n) = (n : ℤ) from rfl, zpow_natCast]
    push_cast
    ring
  | negSucc n =>
    show ((1 : ℤ) : ℚ) / ((2 ^ (n + 1) : ℤ) : ℚ) = (2 : ℚ) ^ (Int.negSucc n)
    rw [zpow_negSucc]
    push_cast
    rw [one_div]

lemma half_toRat : ((⟨1, 2⟩ : Q)).toRat = 1 / 2 := by
  unfold Q.toRat
  norm_num

lemma half_den_pos : 0 < ((⟨1, 2⟩ : Q)).den := by decide

/-- The rounding integer is within one half of the scaled significand. -/
lemma flPick_err {s : Q} (hs : 0 < s.den) : |(flPick s : ℚ) - s.toRat| ≤ 1 / 2 := by
  have hfl : (s.floor : ℚ) = (⌊s.toRat⌋ : ℚ) := by rw [Q.floor_toRat hs]
  have hlow : (⌊s.toRat⌋ : ℚ) ≤ s.toRat := Int.floor_le _
  have hhigh : s.toRat < ⌊s.toRat⌋ + 1 := Int.lt_floor_add_one _
  have hsubden : 0 < (s.sub (Q.ofInt s.floor)).den := Q.den_sub_pos hs one_pos
  have hsubval : (s.sub (Q.ofInt s.floor)).toRat = s.toRat - ⌊s.toRat⌋ := by
    rw [Q.toRat_sub hs one_pos, Q.toRat_ofInt, hfl]
  unfold flPick
  split_ifs with h1 h2 h3
  · rw [Q.lt_iff hsubden half_den_pos, hsubval, half_toRat] at h1
    rw [hfl, abs_le]
    constructor <;> linarith
  · rw [Q.lt_iff half_den_pos hsubden, hsubval, half_toRat] at h2
    push_cast [hfl]
    rw [abs_le]
    constructor <;> linarith
  · rw [Q.lt_iff hsubden half_den_pos, hsubval, half_toRat] at h1
    rw [Q.lt_iff half_den_pos hsubden, hsubval, half_toRat] at h2
    rw [hfl, abs_le]
    constructor <;> linarith
  · rw [Q.lt_iff hsubden half_den_pos, hsubval, half_toRat] at h1
    rw [Q.lt_iff half_den_pos hsubden, hsubval, half_toRat] at h2
    push_cast [hfl]
    rw [abs_le]
    constructor <;> linarith

lemma flRound_den_pos (q : Q) (k : ℤ) : 0 < (flRound q k).den := by
  show 0 < 1 * (pow2 k).den
  simpa using pow2_den_pos k

lemma flRound_toRat (q : Q) (k : ℤ) :
    (flRound q k).toRat = (flPick (q.mul (pow2 (-k))) : ℚ) * (2 : ℚ) ^ k := by
  unfold flRound
  rw [Q.toRat_mul one_pos (pow2_den_pos k), Q.toRat_ofInt, pow2_toRat]

/-- The rounding error of `flRound` at grid `2^k` is at most half a grid
step. -/
lemma flRound_err {q : Q} (hq : 0 < q.den) (k : ℤ) :
    |(flRound q k).toRat - q.toRat| ≤ (2 : ℚ) ^ (k - 1) := by
  have hsden : 0 < (q.mul (pow2 (-k))).den := Q.den_mul_pos hq (pow2_den_pos _)
  have hsval : (q.mul (pow2 (-k))).toRat = q.toRat * (2 : ℚ) ^ (-k) := by
    rw [Q.toRat_mul hq (pow2_den_pos _), pow2_toRat]
  have herr := flPick_err hsden
  have hqs : q.toRat = (q.mul (pow2 (-k))).toRat * (2 : ℚ) ^ k := by
    rw [hsval, mul_assoc, ← zpow_add₀ (two_ne_zero) (-k) k]
    simp
  have habs2 : |(2 : ℚ) ^ k| = (2 : ℚ) ^ k := abs_of_pos (zpow_pos two_pos k)
  rw [flRound_toRat, hqs, ← sub_mul, abs_mul, habs2]
  calc |(flPick (q.mul (pow2 (-k))) : ℚ) - (q.mul (pow2 (-k))).toRat| * (2 : ℚ) ^ k
      ≤ 1 / 2 * (2 : ℚ) ^ k :=
        mul_le_mul_of_nonneg_right herr (le_of_lt (zpow_pos two_pos k))
    _ = (2 : ℚ) ^ (k - 1) := by
        rw [zpow_sub_one₀ (two_ne_zero)]
        ring

/-- `flRound` is exact on values already on the grid. -/
lemma flRound_exact {q : Q} (hq : 0 < q.den) {k z : ℤ}
    (hz : q.toRat = z * (2 : ℚ) ^ k) : (flRound q k).toRat = q.toRat := by
  have hsden : 0 < (q.mul (pow2 (-k))).den := Q.den_mul_pos hq (pow2_den_pos _)
  have hsval : (q.mul (pow2 (-k))).toRat = z := by
    rw [Q.toRat_mul hq (pow2_den_pos _), pow2_toRat, hz, mul_assoc,
      ← zpow_add₀ (two_ne_zero) k (-k)]
    simp
  have hfl : (q.mul (pow2 (-k))).floor = z := by
    rw [Q.floor_toRat hsden, hsval, Int.floor_intCast]
  have hsubval : ((q.mul (pow2 (-k))).sub
      (Q.ofInt (q.mul (pow2 (-k))).floor)).toRat = 0 := by
    rw [Q.toRat_sub hsden one_pos, Q.toRat_ofInt, hfl, hsval]
    ring
  have hcond : Q.lt ((q.mul (pow2 (-k))).sub
      (Q.ofInt (q.mul (pow2 (-k))).floor)) ⟨1, 2⟩ := by
    rw [Q.lt_iff (Q.den_sub_pos hsden one_pos) half_den_pos, hsubval, half_toRat]
    norm_num
  have hpick : flPick (q.mul (pow2 (-k))) = z := by
    unfold flPick
    rw [if_pos hcond, hfl]
  rw [flRound_toRat, hpick, ← hz]

/-- Specification of the exponent search: for a positive value in the fuelled
range, `expAux` returns `e` with `2^e ≤ m·2^e₀ < 2^(e+1)` — the binary
exponent of the value it was started on. -/
lemma expAux_spec : ∀ (fuel : ℕ) (m : Q) (e : ℤ), 0 < m.den → 0 < m.toRat →
    2 * (2 : ℚ) ^ (-(fuel : ℤ)) ≤ m.toRat → m.toRat < (2 : ℚ) ^ (fuel : ℤ) →
    (2 : ℚ) ^ (expAux fuel m e) ≤ m.toRat * (2 : ℚ) ^ e ∧
      m.toRat * (2 : ℚ) ^ e < (2 : ℚ) ^ (expAux fuel m e + 1) := by
  intro fuel
  induction fuel with
  | zero =>
    intro m e _ _ h1 h2
    exfalso
    simp only [Nat.cast_zero, neg_zero, zpow_zero, mul_one] at h1 h2
    linarith
  | succ fuel ih =>
    intro m e hden hpos h1 h2
    have hcast : (((fuel + 1 : ℕ)) : ℤ) = (fuel : ℤ) + 1 := by push_cast; ring
    have h2e : (0 : ℚ) < (2 : ℚ) ^ e := zpow_pos two_pos e
    show (2 : ℚ) ^ (expAux (fuel + 1) m e) ≤ _ ∧ _
    unfold expAux
    split
    · -- m < 1: double m, decrement e
      next hlt =>
      have hm1 : m.toRat < 1 := by
        have h := (Q.lt_iff hden (show 0 < ((⟨1, 1⟩ : Q)).den by decide)).mp hlt
        simpa [Q.toRat] using h
      have hfuelpos : 0 < fuel := by
        rcases Nat.eq_zero_or_pos fuel with h0 | h0
        · exfalso
          subst h0
          rw [show ((1 : ℕ) : ℤ) = 1 from rfl] at h1
          have : (2 : ℚ) * (2 : ℚ) ^ (-(1 : ℤ)) = 1 := by norm_num
          rw [this] at h1
          linarith
        · exact h0
      have hdd : 0 < (m.mul ⟨2, 1⟩).den := Q.den_mul_pos hden (by exact one_pos)
      have hvv : (m.mul ⟨2, 1⟩).toRat = 2 * m.toRat := by
        rw [Q.toRat_mul hden (by exact one_pos)]
        unfold Q.toRat
        push_cast
        ring
      have hih := ih (m.mul ⟨2, 1⟩) (e - 1) hdd (by rw [hvv]; positivity)
        (by
          rw [hvv]
          have hstep : (2 : ℚ) ^ (-(fuel : ℤ)) = (2 : ℚ) ^ (-((fuel + 1 : ℕ) : ℤ)) * 2 := by
            rw [← zpow_add_one₀ (two_ne_zero)]
            congr 1
            push_cast
            ring
          rw [hstep]
          linarith)
        (by
          rw [hvv]
          have h2f : (2 : ℚ) ^ (1 : ℤ) ≤ (2 : ℚ) ^ (fuel : ℤ) := by
            apply zpow_le_zpow_right₀ one_le_two
            omega
          simp only [zpow_one] at h2f
          linarith)
      have htrans : (m.mul ⟨2, 1⟩).toRat * (2 : ℚ) ^ (e - 1) = m.toRat * (2 : ℚ) ^ e := by
        rw [hvv, zpow_sub_one₀ (two_ne_zero)]
        ring
      rw [htrans] at hih
      exact hih
    · -- not (m < 1): split on the second branch
      next hnlt =>
      split
      · -- 2 ≤ m: halve m, increment e
        next hge =>
        have hm2 : 2 ≤ m.toRat := by
          have h := (Q.le_iff (show 0 < ((⟨2, 1⟩ : Q)).den by decide) hden).mp hge
          simpa [Q.toRat] using h
        have hfuelpos : 0 < fuel := by
          rcases Nat.eq_zero_or_pos fuel with h0 | h0
          · exfalso
            subst h0
            rw [show (((0 + 1 : ℕ)) : ℤ) = 1 from rfl] at h2
            simp only [zpow_one] at h2
            linarith
          · exact h0
        have hdd : 0 < (m.mul ⟨1, 2⟩).den := Q.den_mul_pos hden (by decide)
        have hvv : (m.mul ⟨1, 2⟩).toRat = m.toRat / 2 := by
          rw [Q.toRat_mul hden (by decide)]
          unfold Q.toRat
          push_cast
          ring
        have hih := ih (m.mul ⟨1, 2⟩) (e + 1) hdd (by rw [hvv]; positivity)
          (by
            rw [hvv]
            have hlo1 : (2 : ℚ) * (2 : ℚ) ^ (-(fuel : ℤ)) ≤ 1 := by
              have heq : (2 : ℚ) * (2 : ℚ) ^ (-(fuel : ℤ)) = (2 : ℚ) ^ (1 - (fuel : ℤ)) := by
                rw [sub_eq_add_neg, zpow_add₀ (two_ne_zero)]
                ring
              rw [heq, show (1 : ℚ) = (2 : ℚ) ^ (0 : ℤ) from by norm_num]
              apply zpow_le_zpow_right₀ one_le_two
              omega
            linarith)
          (by
            rw [hvv]
            have hup : m.toRat < (2 : ℚ) ^ ((fuel : ℤ) + 1) := by
              rw [← hcast]
              exact h2
            rw [zpow_add_one₀ (two_ne_zero)] at hup
            linarith)
        have htrans : (m.mul ⟨1, 2⟩).toRat * (2 : ℚ) ^ (e + 1) = m.toRat * (2 : ℚ) ^ e := by
          rw [hvv, zpow_add_one₀ (two_ne_zero)]
          ring
        rw [htrans] at hih
        exact hih
      · -- 1 ≤ m < 2: the exponent is found
        next hnge =>
        have hm1 : 1 ≤ m.toRat := by
          have h := (Q.lt_iff hden (show 0 < ((⟨1, 1⟩ : Q)).den by decide)).not.mp hnlt
          simp only [not_lt] at h
          have h1' : ((⟨1, 1⟩ : Q)).toRat ≤ m.toRat := h
          simpa [Q.toRat] using h1'
        have hm2 : m.toRat < 2 := by
          have h := (Q.le_iff (show 0 < ((⟨2, 1⟩ : Q)).den by decide) hden).not.mp hnge
          simp only [not_le] at h
          have h2' : m.toRat < ((⟨2, 1⟩ : Q)).toRat := h
          simpa [Q.toRat] using h2'
        constructor
        · calc (2 : ℚ) ^ e = 1 * (2 : ℚ) ^ e := by ring
            _ ≤ m.toRat * (2 : ℚ) ^ e := by
                apply mul_le_mul_of_nonneg_right hm1 (le_of_lt h2e)
        · calc m.toRat * (2 : ℚ) ^ e < 2 * (2 : ℚ) ^ e := by
                apply mul_lt_mul_of_pos_right hm2 h2e
            _ = (2 : ℚ) ^ (e + 1) := by
                rw [zpow_add_one₀ (two_ne_zero)]
                ring

/-! ## `float` rounding: the facts claims C2 and C5 rest on -/

/-- `flExp` really is the binary exponent, for positive values in the normal
range. -/
lemma flExp_spec {q : Q} (hden : 0 < q.den) (hpos : 0 < q.toRat)
    (hlo : 2 * (2 : ℚ) ^ (-(1200 : ℤ)) ≤ q.toRat)
    (hhi : q.toRat < (2 : ℚ) ^ (1200 : ℤ)) :
    (2 : ℚ) ^ (flExp q) ≤ q.toRat ∧ q.toRat < (2 : ℚ) ^ (flExp q + 1) := by
  have habs : (⟨|q.num|, q.den⟩ : Q).toRat = q.toRat := by
    rw [Q.toRat_abs hden, abs_of_pos hpos]
  have hc1200 : (((1200 : ℕ)) : ℤ) = (1200 : ℤ) := by norm_num
  have h := expAux_spec 1200 ⟨|q.num|, q.den⟩ 0 hden (by rw [habs]; exact hpos)
    (by rw [habs, hc1200]; exact hlo) (by rw [habs, hc1200]; exact hhi)
  rw [habs] at h
  unfold flExp
  constructor
  · have h1 := h.1
    simpa using h1
  · have h2 := h.2
    simpa using h2

lemma fl32_den_pos (q : Q) : 0 < (fl32 q).den := by
  unfold fl32
  split
  · exact one_pos
  · exact flRound_den_pos q _

/-- `fl32` is exact on integers below `2^24` (24-bit significands). -/
lemma fl32_exact {z : ℤ} (h0 : 0 ≤ z) (h24 : z < 2 ^ 24) {q : Q} (hden : 0 < q.den)
    (hq : q.toRat = z) : (fl32 q).toRat = z := by
  unfold fl32
  by_cases h0q : q.num = 0
  · rw [if_pos h0q]
    have hz0 : (z : ℚ) = 0 := by rw [← hq]; exact (Q.num_eq_zero_iff hden).mp h0q
    rw [show ((⟨0, 1⟩ : Q)).toRat = 0 from by unfold Q.toRat; norm_num, hz0]
  · rw [if_neg h0q]
    have hne : q.toRat ≠ 0 := fun h => h0q ((Q.num_eq_zero_iff hden).mpr h)
    have hzpos : 0 < z := by
      rcases lt_or_eq_of_le h0 with h | h
      · exact h
      · exfalso; apply hne; rw [hq, ← h]; norm_num
    have hpos : 0 < q.toRat := by rw [hq]; exact_mod_cast hzpos
    have hz1 : (1 : ℚ) ≤ q.toRat := by
      rw [hq]; exact_mod_cast hzpos
    have h24' : q.toRat < (2 : ℚ) ^ (24 : ℤ) := by
      rw [hq]
      calc (z : ℚ) < ((2 ^ 24 : ℤ) : ℚ) := by exact_mod_cast h24
        _ = (2 : ℚ) ^ (24 : ℤ) := by norm_num
    obtain ⟨hE1, hE2⟩ := flExp_spec hden hpos
      (by
        have hsmall : (2 : ℚ) * (2 : ℚ) ^ (-(1200 : ℤ)) ≤ 1 := by
          rw [show (2 : ℚ) * (2 : ℚ) ^ (-(1200 : ℤ)) = (2 : ℚ) ^ (1 - (1200 : ℤ)) from by
            rw [sub_eq_add_neg, zpow_add₀ two_ne_zero]; ring]
          rw [show (1 : ℚ) = (2 : ℚ) ^ (0 : ℤ) from by norm_num]
          exact zpow_le_zpow_right₀ one_le_two (by omega)
        linarith)
      (calc q.toRat < (2 : ℚ) ^ (24 : ℤ) := h24'
        _ ≤ (2 : ℚ) ^ (1200 : ℤ) := zpow_le_zpow_right₀ one_le_two (by omega))
    have hE23 : flExp q ≤ 23 := by
      by_contra hgt
      push_neg at hgt
      have hmono : (2 : ℚ) ^ (24 : ℤ) ≤ (2 : ℚ) ^ (flExp q) :=
        zpow_le_zpow_right₀ one_le_two (by omega)
      linarith
    obtain ⟨t, ht⟩ : ∃ t : ℕ, (t : ℤ) = 23 - flExp q :=
      ⟨(23 - flExp q).toNat, Int.toNat_of_nonneg (by omega)⟩
    have hz : q.toRat = (z * 2 ^ t : ℤ) * (2 : ℚ) ^ (flExp q - 23) := by
      rw [hq]
      push_cast
      rw [mul_assoc, ← zpow_natCast (2 : ℚ) t, ← zpow_add₀ two_ne_zero,
        show (t : ℤ) + (flExp q - 23) = 0 from by omega]
      norm_num
    rw [flRound_exact hden hz, hq]

/-- A positive normal value is rounded by `fl32` with relative error at most
`2⁻²⁴`. -/
lemma fl32_close {q : Q} (hden : 0 < q.den) (hpos : 0 < q.toRat)
    (hlo : 2 * (2 : ℚ) ^ (-(1200 : ℤ)) ≤ q.toRat)
    (hhi : q.toRat < (2 : ℚ) ^ (1200 : ℤ)) :
    |(fl32 q).toRat - q.toRat| ≤ q.toRat * (2 : ℚ) ^ (-(24 : ℤ)) := by
  have h0q : q.num ≠ 0 := by
    intro h
    rw [(Q.num_eq_zero_iff hden).mp h] at hpos
    exact lt_irrefl _ hpos
  unfold fl32
  rw [if_neg h0q]
  obtain ⟨hE1, hE2⟩ := flExp_spec hden hpos hlo hhi
  calc |(flRound q (flExp q - 23)).toRat - q.toRat|
      ≤ (2 : ℚ) ^ (flExp q - 23 - 1) := flRound_err hden _
    _ = (2 : ℚ) ^ (flExp q) * (2 : ℚ) ^ (-(24 : ℤ)) := by
        rw [← zpow_add₀ two_ne_zero]
        congr 1
        ring
    _ ≤ q.toRat * (2 : ℚ) ^ (-(24 : ℤ)) :=
        mul_le_mul_of_nonneg_right hE1 (le_of_lt (zpow_pos two_pos _))

lemma fl32_le_upper {q : Q} (hden : 0 < q.den) (hpos : 0 < q.toRat)
    (hlo : 2 * (2 : ℚ) ^ (-(1200 : ℤ)) ≤ q.toRat)
    (hhi : q.toRat < (2 : ℚ) ^ (1200 : ℤ)) :
    (fl32 q).toRat ≤ q.toRat * (1 + (2 : ℚ) ^ (-(24 : ℤ))) := by
  have h := (abs_le.mp (fl32_close hden hpos hlo hhi)).2
  rw [mul_add, mul_one]
  linarith

lemma fl32_ge_lower {q : Q} (hden : 0 < q.den) (hpos : 0 < q.toRat)
    (hlo : 2 * (2 : ℚ) ^ (-(1200 : ℤ)) ≤ q.toRat)
    (hhi : q.toRat < (2 : ℚ) ^ (1200 : ℤ)) :
    q.toRat * (1 - (2 : ℚ) ^ (-(24 : ℤ))) ≤ (fl32 q).toRat := by
  have h := (abs_le.mp (fl32_close hden hpos hlo hhi)).1
  rw [mul_sub, mul_one]
  linarith

lemma fl32_pos {q : Q} (hden : 0 < q.den) (hpos : 0 < q.toRat)
    (hlo : 2 * (2 : ℚ) ^ (-(1200 : ℤ)) ≤ q.toRat)
    (hhi : q.toRat < (2 : ℚ) ^ (1200 : ℤ)) : 0 < (fl32 q).toRat := by
  have h := fl32_ge_lower hden hpos hlo hhi
  have hε : (2 : ℚ) ^ (-(24 : ℤ)) < 1 := by
    rw [show (1 : ℚ) = (2 : ℚ) ^ (0 : ℤ) from by norm_num]
    exact zpow_lt_zpow_right₀ one_lt_two (by omega)
  have hfac : 0 < q.toRat * (1 - (2 : ℚ) ^ (-(24 : ℤ))) := by
    apply mul_pos hpos
    linarith
  linarith

/-! ## Scaling (claim C2) -/

/-- The positive branch of `Image::scale` written out: dimensions from
`scaledDim`, pixels gathered through `srcCoord`. -/
lemma scale_pos_eq (img : Image) (factor : Q) (h : ¬ Q.le factor ⟨0, 1⟩) :
    scale img factor =
      { width := scaledDim img.width factor, height := scaledDim img.height factor,
        channels := img.channels,
        pixels := (List.range (scaledDim img.width factor * scaledDim img.height factor
            * img.channels)).map (fun (j : ℕ) =>
          img.pixels.getD
            ((srcCoord (j / img.channels / scaledDim img.width factor) factor * img.width
              + srcCoord (j / img.channels % scaledDim img.width factor) factor)
              * img.channels + j % img.channels) 0) } := by
  unfold scale
  rw [if_neg h]

/-- Per-pixel form of the positive branch of `Image::scale`: destination
column `x`, row `y`, channel `c` holds the byte of the source pixel at column
`srcCoord x`, row `srcCoord y`. -/
lemma scale_pos_pixAt {img : Image} {factor : Q} (h : ¬ Q.le factor ⟨0, 1⟩)
    {x y c : ℕ} (hx : x < scaledDim img.width factor)
    (hy : y < scaledDim img.height factor) (hc : c < img.channels) :
    (scale img factor).pixels.getD
        ((y * scaledDim img.width factor + x) * img.channels + c) 0
      = img.pixels.getD
        ((srcCoord y factor * img.width + srcCoord x factor) * img.channels + c) 0 := by
  rw [scale_pos_eq img factor h]
  have hb : (y * scaledDim img.width factor + x) * img.channels + c
      < scaledDim img.width factor * scaledDim img.height factor * img.channels := by
    calc (y * scaledDim img.width factor + x) * img.channels + c
        < scaledDim img.height factor * scaledDim img.width factor * img.channels :=
          idx_lt hy hx hc
      _ = scaledDim img.width factor * scaledDim img.height factor * img.channels := by
          ring
  rw [rangeMap_getD _ _ _ hb]
  rw [addMul_mod _ hc, addMul_div _ hc, addMul_mod _ hx, addMul_div _ hx]

/-- With an exactly representable factor of value 1, `int(n * factor)` is `n`
for dimensions below `2^24` (all `float` operations involved are exact). -/
lemma scaledDim_one {factor : Q} (hden : 0 < factor.den) (h1 : factor.toRat = 1)
    {n : ℕ} (hn : n < 2 ^ 24) : scaledDim n factor = n := by
  have hq : (Q.ofInt (n : ℤ)).toRat = ((n : ℤ) : ℚ) := Q.toRat_ofInt _
  have hoden : 0 < (Q.ofInt (n : ℤ)).den := one_pos
  have h0 : (0 : ℤ) ≤ (n : ℤ) := Int.natCast_nonneg n
  have h24 : (n : ℤ) < 2 ^ 24 := by exact_mod_cast hn
  have hfl : (fl32 (Q.ofInt (n : ℤ))).toRat = ((n : ℤ) : ℚ) :=
    fl32_exact h0 h24 hoden hq
  have hPden : 0 < ((fl32 (Q.ofInt (n : ℤ))).mul factor).den :=
    Q.den_mul_pos (fl32_den_pos _) hden
  have hP : ((fl32 (Q.ofInt (n : ℤ))).mul factor).toRat = ((n : ℤ) : ℚ) := by
    rw [Q.toRat_mul (fl32_den_pos _) hden, hfl, h1, mul_one]
  have hfl2 : (fl32 ((fl32 (Q.ofInt (n : ℤ))).mul factor)).toRat = ((n : ℤ) : ℚ) :=
    fl32_exact h0 h24 hPden hP
  have hct : (fl32 ((fl32 (Q.ofInt (n : ℤ))).mul factor)).cTrunc = (n : ℤ) :=
    Q.cTrunc_int (fl32_den_pos _) hfl2
  unfold scaledDim
  rw [hct]
  exact Int.toNat_natCast n

/-- With an exactly representable factor of value 1, `int(x / factor)` is `x`
for coordinates below `2^24`. -/
lemma srcCoord_one {factor : Q} (hden : 0 < factor.den) (h1 : factor.toRat = 1)
    {x : ℕ} (hx : x < 2 ^ 24) : srcCoord x factor = x := by
  have hfnum : factor.num ≠ 0 := by
    intro h
    have h0 : factor.toRat = 0 := (Q.num_eq_zero_iff hden).mp h
    rw [h0] at h1
    norm_num at h1
  have hq : (Q.ofInt (x : ℤ)).toRat = ((x : ℤ) : ℚ) := Q.toRat_ofInt _
  have hoden : 0 < (Q.ofInt (x : ℤ)).den := one_pos
  have h0 : (0 : ℤ) ≤ (x : ℤ) := Int.natCast_nonneg x
  have h24 : (x : ℤ) < 2 ^ 24 := by exact_mod_cast hx
  have hfl : (fl32 (Q.ofInt (x : ℤ))).toRat = ((x : ℤ) : ℚ) :=
    fl32_exact h0 h24 hoden hq
  have hDden : 0 < ((fl32 (Q.ofInt (x : ℤ))).div factor).den :=
    Q.den_div_pos (fl32_den_pos _) hfnum
  have hD : ((fl32 (Q.ofInt (x : ℤ))).div factor).toRat = ((x : ℤ) : ℚ) := by
    rw [Q.toRat_div (fl32_den_pos _) hden hfnum, hfl, h1, div_one]
  have hfl2 : (fl32 ((fl32 (Q.ofInt (x : ℤ))).div factor)).toRat = ((x : ℤ) : ℚ) :=
    fl32_exact h0 h24 hDden hD
  have hct : (fl32 ((fl32 (Q.ofInt (x : ℤ))).div factor)).cTrunc = (x : ℤ) :=
    Q.cTrunc_int (fl32_den_pos _) hfl2
  unfold srcCoord
  rw [hct]
  exact Int.toNat_natCast x

/-- `scale` with an exactly representable factor of value 1 is the identity on
well-formed images with dimensions below `2^24`. -/
lemma scale_one {img : Image} {factor : Q} (hden : 0 < factor.den)
    (h1 : factor.toRat = 1) (hw : img.width < 2 ^ 24) (hh : img.height < 2 ^ 24)
    (hin : sizeInv img) : scale img factor = img := by
  have hzden : 0 < ((⟨0, 1⟩ : Q)).den := one_pos
  have hpos : ¬ Q.le factor ⟨0, 1⟩ := by
    rw [Q.le_iff hden hzden, h1]
    norm_num [Q.toRat]
  rw [scale_pos_eq img factor hpos]
  refine Image.eq_of_fields ?_ ?_ rfl ?_
  · exact scaledDim_one hden h1 hw
  · exact scaledDim_one hden h1 hh
  · show (List.range (scaledDim img.width factor * scaledDim img.height factor
        * img.channels)).map _ = img.pixels
    rw [scaledDim_one hden h1 hw, scaledDim_one hden h1 hh]
    apply List.ext_getElem
    · rw [rangeMap_length]
      exact hin.symm
    intro j hj1 hj2
    have hj : j < img.width * img.height * img.channels := by
      simpa using hj1
    obtain ⟨hcC, hcW, hcH, hrec⟩ := split3 hj
    rw [← List.getD_eq_getElem _ 0 hj1, ← List.getD_eq_getElem _ 0 hj2]
    rw [rangeMap_getD _ _ _ hj]
    rw [srcCoord_one hden h1 (lt_trans hcH hh), srcCoord_one hden h1 (lt_trans hcW hw)]
    rw [hrec]

/-- **C2 (amended).**  `scale(factor)` with `factor <= 0` is a silent no-op.
With `factor > 0` it sets the dimensions to `int(width * factor)` and
`int(height * factor)` computed in `float` arithmetic (`scaledDim`) — not to
the exact `floor(width*factor)`, from which the `float` value can differ —
and fills destination pixel `(x, y)` from source pixel
`(int(x/factor), int(y/factor))` computed in `float` arithmetic (`srcCoord`)
for all channels.  `scale(1.0)` is exact (the identity) for images with
dimensions below `2^24`, where `float` conversion of the dimensions is
lossless. -/
theorem scale_spec (img : Image) (factor : Q) (hden : 0 < factor.den) :
    (Q.le factor ⟨0, 1⟩ → scale img factor = img) ∧
    (¬ Q.le factor ⟨0, 1⟩ →
      (scale img factor).width = scaledDim img.width factor ∧
      (scale img factor).height = scaledDim img.height factor ∧
      (scale img factor).channels = img.channels ∧
      (scale img factor).pixels.length =
        scaledDim img.width factor * scaledDim img.height factor * img.channels ∧
      ∀ x y c, x < scaledDim img.width factor → y < scaledDim img.height factor →
        c < img.channels →
        (scale img factor).pixels.getD
            ((y * scaledDim img.width factor + x) * img.channels + c) 0
          = img.pixels.getD
            ((srcCoord y factor * img.width + srcCoord x factor) * img.channels + c) 0) ∧
    (factor.toRat = 1 → img.width < 2 ^ 24 → img.height < 2 ^ 24 → sizeInv img →
      scale img factor = img) := by
  refine ⟨fun h => ?_, fun h => ?_, fun h1 hw hh hin => scale_one hden h1 hw hh hin⟩
  · unfold scale
    rw [if_pos h]
  · rw [scale_pos_eq img factor h]
    refine ⟨rfl, rfl, rfl, rangeMap_length _ _, fun x y c hx hy hc => ?_⟩
    rw [← scale_pos_eq img factor h]
    exact scale_pos_pixAt h hx hy hc

/-- Witness for C2: scaling the 2×2 single-channel image `[1, 2, 3, 4]` by the
exact factor 1 returns it unchanged. -/
theorem scale_spec_witness :
    (0 : ℤ) < ((⟨1, 1⟩ : Q)).den ∧ ((⟨1, 1⟩ : Q)).toRat = 1 ∧
      sizeInv ⟨2, 2, 1, [1, 2, 3, 4]⟩ ∧
      scale ⟨2, 2, 1, [1, 2, 3, 4]⟩ ⟨1, 1⟩ = ⟨2, 2, 1, [1, 2, 3, 4]⟩ :=
  ⟨by decide, by norm_num [Q.toRat], by decide,
    (scale_spec ⟨2, 2, 1, [1, 2, 3, 4]⟩ ⟨1, 1⟩ (by decide)).2.2
      (by norm_num [Q.toRat]) (by decide) (by decide) (by decide)⟩

/-- **C2, counterexample.**  The claim's exact formulas fail under the `float`
arithmetic of the source.  (1) Scaling width 10 by the `float` literal `0.7f`
gives width `int(10.0f * 0.7f) = 7`, while the claimed
`floor(width * factor) = floor(10 * 0.7f)` is 6 (`0.7f` is just below 7/10,
and the `float` product rounds up to exactly 7).  (2) `scale(1.0)` does not
always preserve the width: at width `2^24 + 1` (invariant-satisfying, height
0) the `float` conversion of the width already loses the exact value and the
new width is `2^24`. -/
theorem scale_float_not_exact :
    (scale ⟨10, 1, 1, [0, 1, 2, 3, 4, 5, 6, 7, 8, 9]⟩ (fl32 ⟨7, 10⟩)).width = 7 ∧
    ((Q.ofInt 10).mul (fl32 ⟨7, 10⟩)).floor = 6 ∧
    sizeInv ⟨2 ^ 24 + 1, 0, 1, []⟩ ∧
    (scale ⟨2 ^ 24 + 1, 0, 1, []⟩ ⟨1, 1⟩).width = 2 ^ 24 :=
  ⟨by decide, by decide, by decide, by decide⟩

/-! ## Thumbnails (claim C5) -/

lemma minQ_cases (a b : Q) : Q.minQ a b = a ∨ Q.minQ a b = b := by
  unfold Q.minQ
  split
  · exact Or.inl rfl
  · exact Or.inr rfl

lemma minQ_le_left {a b : Q} (ha : 0 < a.den) (hb : 0 < b.den) :
    (Q.minQ a b).toRat ≤ a.toRat := by
  unfold Q.minQ
  split
  · exact le_refl _
  · next h =>
    rw [Q.le_iff ha hb] at h
    push_neg at h
    exact h.le

lemma minQ_le_right {a b : Q} (ha : 0 < a.den) (hb : 0 < b.den) :
    (Q.minQ a b).toRat ≤ b.toRat := by
  unfold Q.minQ
  split
  · next h => exact (Q.le_iff ha hb).mp h
  · exact le_refl _

/-- The `float` quotient `float(m)/float(n)` computed by `generateThumbnail`
has a positive denominator, value at least `2⁻²⁵`, and value at most the exact
quotient inflated by one rounding step — for `1 ≤ m < 2^23` and
`0 < n < 2^24`. -/
lemma thumbFactor_bounds {m : ℤ} {n : ℕ} (hn : 0 < n) (hn24 : n < 2 ^ 24)
    (hm1 : 1 ≤ m) (hm23 : m < 2 ^ 23) :
    0 < (fl32 ((fl32 (Q.ofInt m)).div (fl32 (Q.ofInt (n : ℤ))))).den ∧
    (2 : ℚ) ^ (-(25 : ℤ)) ≤ (fl32 ((fl32 (Q.ofInt m)).div (fl32 (Q.ofInt (n : ℤ))))).toRat ∧
    (fl32 ((fl32 (Q.ofInt m)).div (fl32 (Q.ofInt (n : ℤ))))).toRat
      ≤ ((m : ℚ) / (n : ℚ)) * (1 + (2 : ℚ) ^ (-(24 : ℤ))) := by
  have hfm : (fl32 (Q.ofInt m)).toRat = ((m : ℤ) : ℚ) :=
    fl32_exact (by omega) (by omega) one_pos (Q.toRat_ofInt m)
  have hfn : (fl32 (Q.ofInt (n : ℤ))).toRat = ((n : ℤ) : ℚ) :=
    fl32_exact (Int.natCast_nonneg n) (by exact_mod_cast hn24) one_pos (Q.toRat_ofInt _)
  have hnq : (0 : ℚ) < (n : ℚ) := by exact_mod_cast hn
  have hfn_num : (fl32 (Q.ofInt (n : ℤ))).num ≠ 0 := by
    intro h
    have h0 : (fl32 (Q.ofInt (n : ℤ))).toRat = 0 :=
      (Q.num_eq_zero_iff (fl32_den_pos _)).mp h
    rw [hfn] at h0
    have h0' : (n : ℚ) = 0 := by exact_mod_cast h0
    exact hnq.ne' h0'
  have hqden : 0 < ((fl32 (Q.ofInt m)).div (fl32 (Q.ofInt (n : ℤ)))).den :=
    Q.den_div_pos (fl32_den_pos _) hfn_num
  have hqval : ((fl32 (Q.ofInt m)).div (fl32 (Q.ofInt (n : ℤ)))).toRat
      = (m : ℚ) / (n : ℚ) := by
    rw [Q.toRat_div (fl32_den_pos _) (fl32_den_pos _) hfn_num, hfm, hfn]
    norm_cast
  have hmq1 : (1 : ℚ) ≤ (m : ℚ) := by exact_mod_cast hm1
  have hq_pos : 0 < (m : ℚ) / (n : ℚ) := div_pos (by linarith) hnq
  have h2p24 : (0 : ℚ) < (2 : ℚ) ^ (24 : ℤ) := zpow_pos two_pos _
  have h24q : (2 : ℚ) ^ (-(24 : ℤ)) ≤ (m : ℚ) / (n : ℚ) := by
    rw [zpow_neg, ← one_div, div_le_div_iff₀ h2p24 hnq]
    have hnle : (n : ℚ) ≤ (2 : ℚ) ^ (24 : ℤ) := by
      have h1 : (n : ℚ) ≤ 2 ^ 24 := by exact_mod_cast hn24.le
      have h2 : ((2 : ℚ)) ^ (24 : ℤ) = 2 ^ 24 := by norm_num
      linarith
    have h3 : 1 * ((2 : ℚ) ^ (24 : ℤ)) ≤ (m : ℚ) * ((2 : ℚ) ^ (24 : ℤ)) :=
      mul_le_mul_of_nonneg_right hmq1 h2p24.le
    linarith
  have hlo1200 : 2 * (2 : ℚ) ^ (-(1200 : ℤ)) ≤ (m : ℚ) / (n : ℚ) := by
    have h1 : 2 * (2 : ℚ) ^ (-(1200 : ℤ)) = (2 : ℚ) ^ (-(1199 : ℤ)) := by
      rw [show (-(1199 : ℤ)) = 1 + -(1200 : ℤ) from by omega, zpow_add₀ two_ne_zero]
      norm_num
    have h2 : (2 : ℚ) ^ (-(1199 : ℤ)) ≤ (2 : ℚ) ^ (-(24 : ℤ)) :=
      zpow_le_zpow_right₀ one_le_two (by omega)
    linarith
  have hhi1200 : (m : ℚ) / (n : ℚ) < (2 : ℚ) ^ (1200 : ℤ) := by
    have hn1 : (1 : ℚ) ≤ (n : ℚ) := by
      have h0 : (1 : ℕ) ≤ n := hn
      exact_mod_cast h0
    have h1 : (m : ℚ) / (n : ℚ) ≤ (m : ℚ) := div_le_self (by linarith) hn1
    have h2 : (m : ℚ) < 2 ^ 23 := by exact_mod_cast hm23
    have h3 : ((2 : ℚ)) ^ (23 : ℤ) ≤ (2 : ℚ) ^ (1200 : ℤ) :=
      zpow_le_zpow_right₀ one_le_two (by omega)
    have h4 : ((2 : ℚ)) ^ (23 : ℤ) = 2 ^ 23 := by norm_num
    linarith
  refine ⟨fl32_den_pos _, ?_, ?_⟩
  · have hge := fl32_ge_lower hqden (by rw [hqval]; exact hq_pos)
      (by rw [hqval]; exact hlo1200) (by rw [hqval]; exact hhi1200)
    rw [hqval] at hge
    have hstep : (2 : ℚ) ^ (-(24 : ℤ)) * (1 - (2 : ℚ) ^ (-(24 : ℤ)))
        ≤ ((m : ℚ) / (n : ℚ)) * (1 - (2 : ℚ) ^ (-(24 : ℤ))) :=
      mul_le_mul_of_nonneg_right h24q (by norm_num)
    have h25 : (2 : ℚ) ^ (-(25 : ℤ))
        ≤ (2 : ℚ) ^ (-(24 : ℤ)) * (1 - (2 : ℚ) ^ (-(24 : ℤ))) := by norm_num
    exact le_trans h25 (le_trans hstep hge)
  · have hle := fl32_le_upper hqden (by rw [hqval]; exact hq_pos)
      (by rw [hqval]; exact hlo1200) (by rw [hqval]; exact hhi1200)
    rw [hqval] at hle
    exact hle

/-- When the factor is at least `2⁻²⁵` and at most `(m/n)(1+2⁻²⁴)`, the
`float` dimension `int(n * factor)` stays at most `m` — the slack of one
`float` rounding per operation never reaches the next integer for
`m < 2^23`. -/
lemma scaledDim_le {factor : Q} {n : ℕ} {m : ℤ} (hden : 0 < factor.den)
    (hn : 0 < n) (hn24 : n < 2 ^ 24) (hm1 : 1 ≤ m) (hm23 : m < 2 ^ 23)
    (hlo : (2 : ℚ) ^ (-(25 : ℤ)) ≤ factor.toRat)
    (hup : factor.toRat ≤ ((m : ℚ) / (n : ℚ)) * (1 + (2 : ℚ) ^ (-(24 : ℤ)))) :
    ((scaledDim n factor : ℕ) : ℤ) ≤ m := by
  have hfl : (fl32 (Q.ofInt (n : ℤ))).toRat = ((n : ℤ) : ℚ) :=
    fl32_exact (Int.natCast_nonneg n) (by exact_mod_cast hn24) one_pos (Q.toRat_ofInt _)
  have hPden : 0 < ((fl32 (Q.ofInt (n : ℤ))).mul factor).den :=
    Q.den_mul_pos (fl32_den_pos _) hden
  have hnq : (0 : ℚ) < (n : ℚ) := by exact_mod_cast hn
  have hmq1 : (1 : ℚ) ≤ (m : ℚ) := by exact_mod_cast hm1
  have hmq : (m : ℚ) ≤ 2 ^ 23 - 1 := by
    have h0 : m ≤ 2 ^ 23 - 1 := by omega
    exact_mod_cast h0
  have hε_pos : (0 : ℚ) < (2 : ℚ) ^ (-(24 : ℤ)) := zpow_pos two_pos _
  have hP : ((fl32 (Q.ofInt (n : ℤ))).mul factor).toRat = (n : ℚ) * factor.toRat := by
    rw [Q.toRat_mul (fl32_den_pos _) hden, hfl]
    push_cast
    ring
  have hP_up : (n : ℚ) * factor.toRat ≤ (m : ℚ) * (1 + (2 : ℚ) ^ (-(24 : ℤ))) := by
    have h1 := mul_le_mul_of_nonneg_left hup hnq.le
    rw [show (n : ℚ) * ((m : ℚ) / (n : ℚ) * (1 + (2 : ℚ) ^ (-(24 : ℤ))))
        = (m : ℚ) * (1 + (2 : ℚ) ^ (-(24 : ℤ))) * ((n : ℚ) / (n : ℚ)) from by ring,
      div_self hnq.ne', mul_one] at h1
    exact h1
  have hP_lo : (2 : ℚ) ^ (-(25 : ℤ)) ≤ (n : ℚ) * factor.toRat := by
    have h1 : (1 : ℚ) ≤ (n : ℚ) := by
      have h0 : (1 : ℕ) ≤ n := hn
      exact_mod_cast h0
    have hf0 : (0 : ℚ) ≤ factor.toRat := le_trans (zpow_pos two_pos _).le hlo
    have h2 : 1 * factor.toRat ≤ (n : ℚ) * factor.toRat :=
      mul_le_mul_of_nonneg_right h1 hf0
    linarith
  have hP_pos : 0 < (n : ℚ) * factor.toRat :=
    lt_of_lt_of_le (zpow_pos two_pos _) hP_lo
  have hP_lo1200 : 2 * (2 : ℚ) ^ (-(1200 : ℤ)) ≤ (n : ℚ) * factor.toRat := by
    have h1 : 2 * (2 : ℚ) ^ (-(1200 : ℤ)) = (2 : ℚ) ^ (-(1199 : ℤ)) := by
      rw [show (-(1199 : ℤ)) = 1 + -(1200 : ℤ) from by omega, zpow_add₀ two_ne_zero]
      norm_num
    have h2 : (2 : ℚ) ^ (-(1199 : ℤ)) ≤ (2 : ℚ) ^ (-(25 : ℤ)) :=
      zpow_le_zpow_right₀ one_le_two (by omega)
    linarith
  have hP_hi1200 : (n : ℚ) * factor.toRat < (2 : ℚ) ^ (1200 : ℤ) := by
    have hε1 : (2 : ℚ) ^ (-(24 : ℤ)) ≤ 1 := by
      have h2 : (2 : ℚ) ^ (-(24 : ℤ)) ≤ (2 : ℚ) ^ (0 : ℤ) :=
        zpow_le_zpow_right₀ one_le_two (by omega)
      have h3 : ((2 : ℚ)) ^ (0 : ℤ) = 1 := by norm_num
      linarith
    have h1 : (m : ℚ) * (1 + (2 : ℚ) ^ (-(24 : ℤ))) ≤ (2 ^ 23 - 1 : ℚ) * 2 :=
      mul_le_mul hmq (by linarith) (by linarith) (by norm_num)
    have h3 : ((2 : ℚ)) ^ (25 : ℤ) ≤ (2 : ℚ) ^ (1200 : ℤ) :=
      zpow_le_zpow_right₀ one_le_two (by omega)
    have h4 : (2 ^ 23 - 1 : ℚ) * 2 < (2 : ℚ) ^ (25 : ℤ) := by norm_num
    linarith
  have hfin : (fl32 ((fl32 (Q.ofInt (n : ℤ))).mul factor)).toRat
      ≤ ((n : ℚ) * factor.toRat) * (1 + (2 : ℚ) ^ (-(24 : ℤ))) := by
    have h0 := fl32_le_upper hPden (by rw [hP]; exact hP_pos)
      (by rw [hP]; exact hP_lo1200) (by rw [hP]; exact hP_hi1200)
    rw [hP] at h0
    exact h0
  have hkey : ((n : ℚ) * factor.toRat) * (1 + (2 : ℚ) ^ (-(24 : ℤ))) < (m : ℚ) + 1 := by
    have hεval : (2 : ℚ) ^ (-(24 : ℤ)) = 1 / 16777216 := by norm_num
    rw [hεval] at hP_up ⊢
    have hmul : ((n : ℚ) * factor.toRat) * (1 + 1 / 16777216)
        ≤ ((m : ℚ) * (1 + 1 / 16777216)) * (1 + 1 / 16777216) :=
      mul_le_mul_of_nonneg_right hP_up (by norm_num)
    nlinarith [hmul, hmq, hmq1]
  have hub : (fl32 ((fl32 (Q.ofInt (n : ℤ))).mul factor)).toRat < (m : ℚ) + 1 :=
    lt_of_le_of_lt hfin hkey
  have h0fl : 0 ≤ (fl32 ((fl32 (Q.ofInt (n : ℤ))).mul factor)).toRat := by
    have h0 := fl32_pos hPden (by rw [hP]; exact hP_pos)
      (by rw [hP]; exact hP_lo1200) (by rw [hP]; exact hP_hi1200)
    linarith
  have hct : (fl32 ((fl32 (Q.ofInt (n : ℤ))).mul factor)).cTrunc ≤ m :=
    Q.cTrunc_le (fl32_den_pos _) h0fl hub
  unfold scaledDim
  omega

/-- The factor `min(d1, d2)` of `generateThumbnail` is positive, and scaling
each source dimension by it stays within the corresponding bound. -/
lemma thumb_core {d1 d2 : Q} {w h : ℕ} {maxW maxH : ℤ}
    (hd1den : 0 < d1.den) (hd2den : 0 < d2.den)
    (hd1lo : (2 : ℚ) ^ (-(25 : ℤ)) ≤ d1.toRat)
    (hd2lo : (2 : ℚ) ^ (-(25 : ℤ)) ≤ d2.toRat)
    (hd1up : d1.toRat ≤ ((maxW : ℚ) / (w : ℚ)) * (1 + (2 : ℚ) ^ (-(24 : ℤ))))
    (hd2up : d2.toRat ≤ ((maxH : ℚ) / (h : ℚ)) * (1 + (2 : ℚ) ^ (-(24 : ℤ))))
    (hw : 0 < w) (hh : 0 < h) (hw24 : w < 2 ^ 24) (hh24 : h < 2 ^ 24)
    (hW1 : 1 ≤ maxW) (hW23 : maxW < 2 ^ 23) (hH1 : 1 ≤ maxH) (hH23 : maxH < 2 ^ 23) :
    ¬ Q.le (Q.minQ d1 d2) ⟨0, 1⟩ ∧
    ((scaledDim w (Q.minQ d1 d2) : ℕ) : ℤ) ≤ maxW ∧
    ((scaledDim h (Q.minQ d1 d2) : ℕ) : ℤ) ≤ maxH := by
  have hFden : 0 < (Q.minQ d1 d2).den := by
    rcases minQ_cases d1 d2 with hc | hc
    · rw [hc]; exact hd1den
    · rw [hc]; exact hd2den
  have hFlo : (2 : ℚ) ^ (-(25 : ℤ)) ≤ (Q.minQ d1 d2).toRat := by
    rcases minQ_cases d1 d2 with hc | hc
    · rw [hc]; exact hd1lo
    · rw [hc]; exact hd2lo
  have hFup1 : (Q.minQ d1 d2).toRat
      ≤ ((maxW : ℚ) / (w : ℚ)) * (1 + (2 : ℚ) ^ (-(24 : ℤ))) :=
    le_trans (minQ_le_left hd1den hd2den) hd1up
  have hFup2 : (Q.minQ d1 d2).toRat
      ≤ ((maxH : ℚ) / (h : ℚ)) * (1 + (2 : ℚ) ^ (-(24 : ℤ))) :=
    le_trans (minQ_le_right hd1den hd2den) hd2up
  refine ⟨?_, scaledDim_le hFden hw hw24 hW1 hW23 hFlo hFup1,
    scaledDim_le hFden hh hh24 hH1 hH23 hFlo hFup2⟩
  rw [Q.le_iff hFden one_pos]
  intro hcon
  have h0 : ((⟨0, 1⟩ : Q)).toRat = 0 := by norm_num [Q.toRat]
  rw [h0] at hcon
  have h1 := lt_of_lt_of_le (zpow_pos two_pos (-(25 : ℤ))) hFlo
  linarith

/-- **C5 (amended).**  `generateThumbnail(maxW, maxH)` leaves the original
image unchanged and returns a thumbnail of width at most `maxW` and height at
most `maxH` — **provided** the dimensions are positive and below `2^24` (so
`float` conversion is exact) and `1 ≤ maxW, maxH < 2^23`; the claim's "for
all integers maxW, maxH" is false (see the counterexample for `maxW = 0` and
`maxW = 2^24 + 3`). -/
theorem generateThumbnail_spec (img : Image) (maxW maxH : ℤ)
    (hw : 0 < img.width) (hh : 0 < img.height)
    (hw24 : img.width < 2 ^ 24) (hh24 : img.height < 2 ^ 24)
    (hW1 : 1 ≤ maxW) (hW23 : maxW < 2 ^ 23) (hH1 : 1 ≤ maxH) (hH23 : maxH < 2 ^ 23) :
    (generateThumbnail img maxW maxH).1 = img ∧
    ((generateThumbnail img maxW maxH).2.width : ℤ) ≤ maxW ∧
    ((generateThumbnail img maxW maxH).2.height : ℤ) ≤ maxH := by
  obtain ⟨hd1den, hd1lo, hd1up⟩ := thumbFactor_bounds hw hw24 hW1 hW23
  obtain ⟨hd2den, hd2lo, hd2up⟩ := thumbFactor_bounds hh hh24 hH1 hH23
  obtain ⟨hpos, hwle, hhle⟩ := thumb_core hd1den hd2den hd1lo hd2lo hd1up hd2up
    hw hh hw24 hh24 hW1 hW23 hH1 hH23
  refine ⟨rfl, ?_, ?_⟩
  · show ((scale (updatePixelData img.pixels img.width img.height img.channels)
        (Q.minQ (fl32 ((fl32 (Q.ofInt maxW)).div (fl32 (Q.ofInt img.width))))
          (fl32 ((fl32 (Q.ofInt maxH)).div (fl32 (Q.ofInt img.height)))))).width : ℤ) ≤ maxW
    rw [scale_pos_eq _ _ hpos]
    exact hwle
  · show ((scale (updatePixelData img.pixels img.width img.height img.channels)
        (Q.minQ (fl32 ((fl32 (Q.ofInt maxW)).div (fl32 (Q.ofInt img.width))))
          (fl32 ((fl32 (Q.ofInt maxH)).div (fl32 (Q.ofInt img.height)))))).height : ℤ) ≤ maxH
    rw [scale_pos_eq _ _ hpos]
    exact hhle

/-- Witness for C5 on the 2×2 single-channel image `[1, 2, 3, 4]` with
`maxW = maxH = 1`. -/
theorem generateThumbnail_spec_witness :
    0 < (⟨2, 2, 1, [1, 2, 3, 4]⟩ : Image).width ∧
      (generateThumbnail ⟨2, 2, 1, [1, 2, 3, 4]⟩ 1 1).1 = ⟨2, 2, 1, [1, 2, 3, 4]⟩ ∧
      ((generateThumbnail ⟨2, 2, 1, [1, 2, 3, 4]⟩ 1 1).2.width : ℤ) ≤ 1 :=
  ⟨by decide,
    (generateThumbnail_spec ⟨2, 2, 1, [1, 2, 3, 4]⟩ 1 1 (by decide) (by decide)
      (by decide) (by decide) (by decide) (by decide) (by decide) (by decide)).1,
    (generateThumbnail_spec ⟨2, 2, 1, [1, 2, 3, 4]⟩ 1 1 (by decide) (by decide)
      (by decide) (by decide) (by decide) (by decide) (by decide) (by decide)).2.1⟩

/-- **C5, counterexample.**  The claimed bound fails for some integer
arguments.  (1) `maxW = 0` on a 1×1 image: the factor is 0, `scale` treats it
as a no-op, and the thumbnail keeps width 1 > 0.  (2) `maxW = maxH = 2^24+3`
on a 1×1 image: `float(2^24+3) = 2^24+4`, so the thumbnail is `2^24+4` wide —
wider than `maxW`. -/
theorem generateThumbnail_not_bounded :
    (generateThumbnail ⟨1, 1, 1, [5]⟩ 0 1).2.width = 1 ∧
    (generateThumbnail ⟨1, 1, 1, [5]⟩ (2 ^ 24 + 3) (2 ^ 24 + 3)).2.width = 2 ^ 24 + 4 :=
  ⟨by decide, by decide⟩

end Yiv
